import Mathlib

/-!
# Verification of the stract crawl frontier (`core/src/crawler/crawl_db.rs`)

This file gives a shallow embedding of the persistent crawl frontier of the
stract repository: the rolling-shard URL state store, the domain state store,
the streaming weighted reservoir sampler, and the `CrawlDb` orchestrator
(`insert_urls`, `sample_domains`, `prepare_jobs`), together with theorems
settling the specification claims about them.

Modelling conventions:

* Machine bytes are `Nat`s (< 256 in well-formed data); byte strings are
  `List Nat`.  `f64` weights are modelled as `ℤ`: the embedded code only
  initializes weights to `0.0`, adds `1.0`, compares and takes maxima of
  these link counts — operations that are exact in both types.  The sampler's
  priorities (`-ln(u + ε)/(w + 1)`, genuinely fractional) are modelled as `ℚ`.
* The rocksdb stores are modelled as association lists from key bytes to
  values.  Stored *values* are modelled by their bincode decode result
  (`Option` of the decoded type): `some v` is a byte string that decodes to
  `v`, `none` is a corrupt byte string on which `bincode::deserialize` fails.
  Stored *keys* are kept as concrete byte strings, with bincode's
  length-prefixed encoding modelled exactly (`u64` little-endian length
  followed by the content bytes), because the composite-key claims are about
  those bytes.
* `rand::thread_rng` draws are modelled by an oracle `prio : Nat → ℤ → ℚ`
  giving the priority `-ln(u + ε) / (w + 1)` of the i-th stream element of
  weight `w`; every theorem about the sampler holds for every oracle.
* Rust panics (`unwrap` on corrupt data or on an empty shard list) are
  modelled as `GetResult.panic` / `Option.none`; `Result::Err` values that are
  propagated with `?` are modelled with `Except`.
-/

/-! ## Bytes and the bincode encoding model -/

/-- Byte strings: lists of byte values. -/
abbrev Bytes : Type := List Nat

/-- A domain is identified by the bytes of its normalized registrable host. -/
abbrev Domain : Type := Bytes

/-- `UrlString(String)` from the source: the full textual form of a URL,
as bytes. -/
abbrev UrlString : Type := Bytes

/-- Little-endian base-256 digits of `n`, `k` bytes wide (bincode fixint). -/
def natToLe : Nat → Nat → Bytes
  | 0, _ => []
  | k + 1, n => n % 256 :: natToLe k (n / 256)

/-- The 8-byte little-endian encoding of a `u64` used by bincode's default
(fixint) configuration. -/
def u64le (n : Nat) : Bytes := natToLe 8 n

/-- Read back a little-endian byte string as a natural number. -/
def leToNat : Bytes → Nat
  | [] => 0
  | b :: bs => b + 256 * leToNat bs

/-- bincode serialization of a byte string (`String` / `Vec<u8>`): the
`u64` little-endian length followed by the content bytes. -/
def bincodeBytes (b : Bytes) : Bytes := u64le b.length ++ b

/-- bincode deserialization of a byte string from an exact slice: read the
8-byte little-endian length, and succeed iff exactly that many bytes follow. -/
def decodeBincodeBytes (bs : Bytes) : Option Bytes :=
  if 8 ≤ bs.length ∧ (bs.take 8).all (· < 256) = true ∧
      (bs.drop 8).length = leToNat (bs.take 8) then
    some (bs.drop 8)
  else none

/-- Composite key of a URL inside a shard:
`bincode(domain) || 0x2F || bincode(url)` (`b'/' = 47`). -/
def compositeKey (domain : Domain) (url : UrlString) : Bytes :=
  bincodeBytes domain ++ 47 :: bincodeBytes url

/-- Byte-wise lexicographic strict order on byte strings, as Rust compares
`Vec<u8>` slices (a strict prefix is smaller). -/
def bytesLt : Bytes → Bytes → Bool
  | [], [] => false
  | [], _ :: _ => true
  | _ :: _, [] => false
  | a :: as, b :: bs => if a < b then true else if b < a then false else bytesLt as bs

/-- Byte-wise lexicographic `≤` on byte strings. -/
def bytesLe (a b : Bytes) : Bool := !(bytesLt b a)

/-! ## Association-list model of the key-value stores -/

/-- Point lookup in an association list (first binding wins, as in a store
with unique keys). -/
def alookup {α β : Type} [DecidableEq α] (k : α) : List (α × β) → Option β
  | [] => none
  | (k', v) :: rest => if k = k' then some v else alookup k rest

/-- Overwrite-or-append update of an association list. -/
def aput {α β : Type} [DecidableEq α] (k : α) (v : β) : List (α × β) → List (α × β)
  | [] => [(k, v)]
  | (k', v') :: rest => if k = k' then (k, v) :: rest else (k', v') :: aput k v rest

/-- Order-preserving insert into an association list sorted by key bytes,
modelling a write into rocksdb's ordered keyspace. -/
def sortedPut {β : Type} (k : Bytes) (v : β) : List (Bytes × β) → List (Bytes × β)
  | [] => [(k, v)]
  | (k', v') :: rest =>
    if bytesLt k k' then (k, v) :: (k', v') :: rest
    else if k = k' then (k, v) :: rest
    else (k', v') :: sortedPut k v rest

/-! ## Crawl-state data model -/

/-- `UrlStatus` from the source. -/
inductive UrlStatus : Type where
  | pending : UrlStatus
  | crawling : UrlStatus
  | failed : Option Nat → UrlStatus
  | done : UrlStatus
deriving DecidableEq

/-- `DomainStatus` from the source. -/
inductive DomainStatus : Type where
  | pending : DomainStatus
  | noUncrawledUrls : DomainStatus
  | crawlInProgress : DomainStatus
deriving DecidableEq

/-- `UrlState { weight: f64, status: UrlStatus }`. -/
structure UrlState : Type where
  weight : ℤ
  status : UrlStatus
deriving DecidableEq

/-- `UrlState::default()`: weight 0, status Pending. -/
def urlStateDefault : UrlState := ⟨0, UrlStatus.pending⟩

/-- `DomainState { weight: f64, status: DomainStatus, total_urls: u64 }`. -/
structure DomainState : Type where
  weight : ℤ
  status : DomainStatus
  total_urls : Nat
deriving DecidableEq

/-- `DomainState::default()`: weight 0, status Pending, no URLs. -/
def domainStateDefault : DomainState := ⟨0, DomainStatus.pending, 0⟩

/-! ## The streaming weighted reservoir sampler (`weighted_sample`) -/

/-- Greatest priority currently in the heap (`BinaryHeap::peek` under
`f64::total_cmp`). -/
def maxPrio {T : Type} : List (T × ℚ) → ℚ
  | [] => 0
  | [x] => x.2
  | x :: y :: t => max x.2 (maxPrio (y :: t))

/-- Replace the first heap entry carrying the maximal priority `m` by the new
item, modelling `PeekMut` assignment to the heap top. -/
def replaceFirstAt {T : Type} (m : ℚ) (item : T) (p : ℚ) :
    List (T × ℚ) → List (T × ℚ)
  | [] => []
  | x :: t => if x.2 = m then (item, p) :: t else x :: replaceFirstAt m item p t

/-- One step of the reservoir loop body: push while the heap holds fewer than
`k` elements, otherwise replace the top iff the new priority is smaller. -/
def wsStep {T : Type} (k : Nat) (heap : List (T × ℚ)) (item : T) (p : ℚ) :
    List (T × ℚ) :=
  if heap.length < k then (item, p) :: heap
  else
    match heap with
    | [] => []
    | h :: t =>
      if p < maxPrio (h :: t) then replaceFirstAt (maxPrio (h :: t)) item p (h :: t)
      else h :: t

/-- The sampler loop over the stream; `i` indexes the rng draw for each
element and `prio i w` is the priority `-ln(u + ε)/(w + 1)` it yields. -/
def weightedSampleAux {T : Type} (k : Nat) (prio : Nat → ℤ → ℚ) :
    List (T × ℤ) → Nat → List (T × ℚ) → List (T × ℚ)
  | [], _, heap => heap
  | (item, w) :: rest, i, heap =>
      weightedSampleAux k prio rest (i + 1) (wsStep k heap item (prio i w))

/-- `weighted_sample` from the source: select up to `num_items` elements of
the stream with a bounded heap of exponential-jump priorities, returning the
heap's items. -/
def weighted_sample {T : Type} (prio : Nat → ℤ → ℚ) (items : List (T × ℤ))
    (num_items : Nat) : List T :=
  (weightedSampleAux num_items prio items 0 []).map Prod.fst

/-! ## Basic lemmas about the helpers -/

theorem alookup_aput_self {α β : Type} [DecidableEq α] (k : α) (v : β)
    (l : List (α × β)) : alookup k (aput k v l) = some v := by
  induction l with
  | nil => simp [aput, alookup]
  | cons h t ih =>
    obtain ⟨k', v'⟩ := h
    by_cases hk : k = k'
    · simp [aput, alookup, hk]
    · simp [aput, alookup, hk, ih]

theorem alookup_aput_ne {α β : Type} [DecidableEq α] {k k' : α} (v : β)
    (l : List (α × β)) (h : k ≠ k') : alookup k (aput k' v l) = alookup k l := by
  induction l with
  | nil => simp [aput, alookup, h]
  | cons hd t ih =>
    obtain ⟨k₀, v₀⟩ := hd
    by_cases hk : k' = k₀
    · subst hk
      simp [aput, alookup, h]
    · by_cases hkk : k = k₀ <;> simp [aput, alookup, hk, hkk, ih]

theorem bytesLt_irrefl (a : Bytes) : bytesLt a a = false := by
  induction a with
  | nil => rfl
  | cons b t ih => simp [bytesLt, ih]

theorem alookup_sortedPut_self {β : Type} (k : Bytes) (v : β)
    (l : List (Bytes × β)) : alookup k (sortedPut k v l) = some v := by
  induction l with
  | nil => simp [sortedPut, alookup]
  | cons h t ih =>
    obtain ⟨k', v'⟩ := h
    by_cases hk : k = k'
    · subst hk
      simp [sortedPut, alookup, bytesLt_irrefl]
    · by_cases hlt : bytesLt k k' = true
      · simp [sortedPut, alookup, hlt]
      · simp [sortedPut, alookup, hlt, hk, ih]

theorem alookup_sortedPut_ne {β : Type} {k k' : Bytes} (v : β)
    (l : List (Bytes × β)) (h : k ≠ k') :
    alookup k (sortedPut k' v l) = alookup k l := by
  induction l with
  | nil => simp [sortedPut, alookup, h]
  | cons hd t ih =>
    obtain ⟨k₀, v₀⟩ := hd
    by_cases hlt : bytesLt k' k₀ = true
    · simp [sortedPut, alookup, hlt, h]
    · by_cases hk : k' = k₀
      · subst hk
        simp [sortedPut, alookup, hlt, h]
      · by_cases hkk : k = k₀ <;> simp [sortedPut, alookup, hlt, hk, hkk, ih]

theorem leToNat_natToLe (k n : Nat) : leToNat (natToLe k n) = n % 256 ^ k := by
  induction k generalizing n with
  | zero => simp [natToLe, leToNat, Nat.mod_one]
  | succ k ih =>
    simp only [natToLe, leToNat, ih]
    rw [Nat.pow_succ', Nat.mod_mul]

theorem natToLe_leToNat (bs : Bytes) (h : ∀ b ∈ bs, b < 256) :
    natToLe bs.length (leToNat bs) = bs := by
  induction bs with
  | nil => simp [natToLe]
  | cons b t ih =>
    have hb : b < 256 := h b (List.mem_cons_self _ _)
    have ht : ∀ x ∈ t, x < 256 := fun x hx => h x (List.mem_cons_of_mem _ hx)
    simp only [List.length_cons, natToLe, leToNat]
    have h1 : (b + 256 * leToNat t) % 256 = b := by omega
    have h2 : (b + 256 * leToNat t) / 256 = leToNat t := by omega
    rw [h1, h2, ih ht]

theorem natToLe_lt (k n : Nat) : ∀ b ∈ natToLe k n, b < 256 := by
  induction k generalizing n with
  | zero => simp [natToLe]
  | succ k ih =>
    intro b hb
    simp only [natToLe, List.mem_cons] at hb
    rcases hb with hb | hb
    · omega
    · exact ih _ _ hb

theorem natToLe_length (k n : Nat) : (natToLe k n).length = k := by
  induction k generalizing n with
  | zero => simp [natToLe]
  | succ k ih => simp [natToLe, ih]

/-- Decoding is exact: a successful bincode decode pins down the input bytes
as the encoding of the output. -/
theorem decodeBincodeBytes_eq_some {bs d : Bytes}
    (h : decodeBincodeBytes bs = some d) : bs = bincodeBytes d := by
  unfold decodeBincodeBytes at h
  split at h
  case isTrue hc =>
    obtain ⟨hlen, hall, hrest⟩ := hc
    injection h with h
    subst h
    have htake : (bs.take 8).length = 8 := by
      rw [List.length_take]
      omega
    have hall' : ∀ b ∈ bs.take 8, b < 256 := by
      intro b hb
      have := List.all_eq_true.mp hall b hb
      simpa using this
    have henc : natToLe 8 (leToNat (bs.take 8)) = bs.take 8 := by
      have := natToLe_leToNat (bs.take 8) hall'
      rwa [htake] at this
    unfold bincodeBytes u64le
    rw [hrest, henc, List.take_append_drop]
  case isFalse => cases h

/-- Byte strings of length below `2 ^ 64` round-trip through the bincode
encoding. -/
theorem decodeBincodeBytes_bincodeBytes (d : Bytes) (h : d.length < 256 ^ 8) :
    decodeBincodeBytes (bincodeBytes d) = some d := by
  have hlen8 : (natToLe 8 d.length).length = 8 := natToLe_length 8 d.length
  have htake : (bincodeBytes d).take 8 = natToLe 8 d.length := by
    unfold bincodeBytes u64le
    rw [List.take_append_of_le_length (by omega), List.take_of_length_le (by omega)]
  have hdrop : (bincodeBytes d).drop 8 = d := by
    unfold bincodeBytes u64le
    rw [List.drop_append_of_le_length (by omega), List.drop_of_length_le (by omega)]
    simp
  have hcond : 8 ≤ (bincodeBytes d).length ∧
      ((bincodeBytes d).take 8).all (· < 256) = true ∧
      ((bincodeBytes d).drop 8).length = leToNat ((bincodeBytes d).take 8) := by
    refine ⟨?_, ?_, ?_⟩
    · unfold bincodeBytes u64le
      rw [List.length_append, hlen8]
      omega
    · rw [htake, List.all_eq_true]
      intro b hb
      simpa using natToLe_lt 8 d.length b hb
    · rw [htake, hdrop, leToNat_natToLe]
      exact (Nat.mod_eq_of_lt h).symm
  unfold decodeBincodeBytes
  rw [if_pos hcond, hdrop]

/-- The bincode encoding of byte strings is injective: the content follows
the fixed-width 8-byte length prefix. -/
theorem bincodeBytes_injective {a b : Bytes} (h : bincodeBytes a = bincodeBytes b) :
    a = b := by
  have ha : (bincodeBytes a).drop 8 = a := by
    unfold bincodeBytes u64le
    rw [List.drop_append_of_le_length (by rw [natToLe_length])]
    rw [List.drop_of_length_le (by rw [natToLe_length])]
    simp
  have hb : (bincodeBytes b).drop 8 = b := by
    unfold bincodeBytes u64le
    rw [List.drop_append_of_le_length (by rw [natToLe_length])]
    rw [List.drop_of_length_le (by rw [natToLe_length])]
    simp
  rw [← ha, ← hb, h]

/-! ## Sampler lemmas -/

theorem replaceFirstAt_length {T : Type} (m : ℚ) (item : T) (p : ℚ)
    (l : List (T × ℚ)) : (replaceFirstAt m item p l).length = l.length := by
  induction l with
  | nil => rfl
  | cons x t ih =>
    by_cases hx : x.2 = m <;> simp [replaceFirstAt, hx, ih]

theorem wsStep_length {T : Type} (k : Nat) (heap : List (T × ℚ)) (item : T)
    (p : ℚ) :
    (wsStep k heap item p).length =
      if heap.length < k then heap.length + 1 else heap.length := by
  unfold wsStep
  by_cases hlen : heap.length < k
  · simp [hlen]
  · cases heap with
    | nil =>
      simp only [List.length_nil] at hlen
      simp [hlen]
    | cons h t =>
      simp only [hlen, if_false]
      by_cases hp : p < maxPrio (h :: t) <;> simp [hp, replaceFirstAt_length]

theorem weightedSampleAux_length {T : Type} (k : Nat) (prio : Nat → ℤ → ℚ)
    (items : List (T × ℤ)) (i : Nat) (heap : List (T × ℚ))
    (hheap : heap.length ≤ k) :
    (weightedSampleAux k prio items i heap).length =
      min (heap.length + items.length) k := by
  induction items generalizing i heap with
  | nil =>
    simp only [weightedSampleAux, List.length_nil, Nat.add_zero]
    omega
  | cons x rest ih =>
    obtain ⟨item, w⟩ := x
    simp only [weightedSampleAux, List.length_cons]
    rw [ih _ _ (by rw [wsStep_length]; split <;> omega)]
    rw [wsStep_length]
    split <;> omega

theorem mem_replaceFirstAt {T : Type} {m : ℚ} {item : T} {p : ℚ}
    {l : List (T × ℚ)} {z : T × ℚ} (hz : z ∈ replaceFirstAt m item p l) :
    z = (item, p) ∨ z ∈ l := by
  induction l with
  | nil => simp [replaceFirstAt] at hz
  | cons x t ih =>
    by_cases hx : x.2 = m
    · simp only [replaceFirstAt, hx, if_true, List.mem_cons] at hz
      rcases hz with hz | hz
      · exact Or.inl hz
      · exact Or.inr (List.mem_cons_of_mem _ hz)
    · simp only [replaceFirstAt, hx, if_false, List.mem_cons] at hz
      rcases hz with hz | hz
      · exact Or.inr (by simp [hz])
      · rcases ih hz with h | h
        · exact Or.inl h
        · exact Or.inr (List.mem_cons_of_mem _ h)

theorem mem_wsStep {T : Type} {k : Nat} {heap : List (T × ℚ)} {item : T}
    {p : ℚ} {z : T × ℚ} (hz : z ∈ wsStep k heap item p) :
    z = (item, p) ∨ z ∈ heap := by
  unfold wsStep at hz
  by_cases hlen : heap.length < k
  · simp only [hlen, if_true, List.mem_cons] at hz
    tauto
  · simp only [hlen, if_false] at hz
    cases heap with
    | nil => simp at hz
    | cons h t =>
      by_cases hp : p < maxPrio (h :: t)
      · simp only [hp, if_true] at hz
        exact mem_replaceFirstAt hz
      · simp only [hp, if_false] at hz
        exact Or.inr hz

theorem mem_weightedSampleAux {T : Type} {k : Nat} {prio : Nat → ℤ → ℚ}
    {items : List (T × ℤ)} {i : Nat} {heap : List (T × ℚ)} {z : T × ℚ}
    (hz : z ∈ weightedSampleAux k prio items i heap) :
    z ∈ heap ∨ z.1 ∈ items.map Prod.fst := by
  induction items generalizing i heap with
  | nil => exact Or.inl hz
  | cons x rest ih =>
    obtain ⟨item, w⟩ := x
    simp only [weightedSampleAux] at hz
    rcases ih hz with h | h
    · rcases mem_wsStep h with h' | h'
      · right
        simp [h']
      · exact Or.inl h'
    · right
      simp [h]

theorem mem_weighted_sample {T : Type} {prio : Nat → ℤ → ℚ}
    {items : List (T × ℤ)} {k : Nat} {x : T}
    (hx : x ∈ weighted_sample prio items k) : x ∈ items.map Prod.fst := by
  unfold weighted_sample at hx
  obtain ⟨z, hz, rfl⟩ := List.mem_map.mp hx
  rcases mem_weightedSampleAux hz with h | h
  · simp at h
  · exact h

theorem weightedSampleAux_all_kept {T : Type} (k : Nat) (prio : Nat → ℤ → ℚ)
    (items : List (T × ℤ)) (i : Nat) (heap : List (T × ℚ))
    (h : heap.length + items.length ≤ k) :
    List.Perm ((weightedSampleAux k prio items i heap).map Prod.fst)
      (items.map Prod.fst ++ heap.map Prod.fst) := by
  induction items generalizing i heap with
  | nil => simp [weightedSampleAux]
  | cons x rest ih =>
    obtain ⟨item, w⟩ := x
    simp only [weightedSampleAux]
    have hlen : heap.length < k := by
      simp only [List.length_cons] at h
      omega
    have hstep : wsStep k heap item (prio i w) = (item, prio i w) :: heap := by
      unfold wsStep
      simp [hlen]
    rw [hstep]
    have := ih (i + 1) ((item, prio i w) :: heap)
      (by simp only [List.length_cons] at h ⊢; omega)
    refine this.trans ?_
    simp only [List.map_cons, List.map]
    exact List.perm_middle

/-! ## The URL state shard (`UrlStateDbShard`) -/

/-- Outcome of an operation that can abort the process: `ok` is a normal
return, `panic` models a Rust `unwrap()` failure. -/
inductive GetResult (α : Type) : Type where
  | ok : α → GetResult α
  | panic : GetResult α
deriving DecidableEq

/-- `MAX_URL_DB_SIZE_BYTES`: the 10 GiB rolling threshold. -/
def MAX_URL_DB_SIZE_BYTES : Nat := 10 * 1024 * 1024 * 1024

/-- One rolling shard: the ordered `urls` store (keys are composite key
bytes, values modelled by their decode result), the sibling `ranges` store
(keys are `bincode(domain)`, values are the `[start, stop]` key range), and
the cached approximate on-disk size. -/
structure UrlStateDbShard : Type where
  db : List (Bytes × Option UrlState)
  rangesDb : List (Bytes × (Bytes × Bytes))
  approx_size_bytes : Nat
deriving DecidableEq

/-- `UrlStateDbShard::get`: point lookup of the composite key followed by
`bincode::deserialize(&state_bytes).unwrap()` — a stored value that fails to
decode panics. -/
def shardGet (shard : UrlStateDbShard) (domain : Domain) (url : UrlString) :
    GetResult (Option UrlState) :=
  match alookup (compositeKey domain url) shard.db with
  | none => GetResult.ok none
  | some (some state) => GetResult.ok (some state)
  | some none => GetResult.panic

/-- The per-key range update of `put_batch`: widen `[start, stop]` to cover
the new key, starting from a point range on first contact. -/
def updateRange (range : Option (Bytes × Bytes)) (key : Bytes) : Bytes × Bytes :=
  match range with
  | none => (key, key)
  | some (s, e) =>
    ((if bytesLt key s then key else s), (if bytesLt e key then key else e))

/-- `UrlStateDbShard::put_batch`: load the domain's range, then in one pass
over the batch widen the range and stage each composite-key write; finally
apply the write batch and persist the widened range (if any key was seen). -/
def shardPutBatch (shard : UrlStateDbShard) (domain : Domain)
    (urls : List (UrlString × UrlState)) : UrlStateDbShard :=
  let domain_bytes := bincodeBytes domain
  let res := urls.foldl
    (fun acc p =>
      let key := domain_bytes ++ 47 :: bincodeBytes p.1
      (some (updateRange acc.1 key), sortedPut key (some p.2) acc.2))
    (alookup domain_bytes shard.rangesDb, shard.db)
  { db := res.2,
    rangesDb :=
      match res.1 with
      | some r => aput domain_bytes r shard.rangesDb
      | none => shard.rangesDb,
    approx_size_bytes := shard.approx_size_bytes }

/-- `UrlStateDbShard::get_all_urls`: if the domain has a range record, seek
to `start` (drop all smaller keys of the ordered store), iterate while the
key is at most `stop`, and decode each record, silently skipping records
whose key suffix or value fails to decode. Domains without a range record
yield the empty list. -/
def shardGetAllUrls (shard : UrlStateDbShard) (domain : Domain) :
    List (UrlString × UrlState) :=
  match alookup (bincodeBytes domain) shard.rangesDb with
  | none => []
  | some (start, stop) =>
    ((shard.db.dropWhile (fun kv => bytesLt kv.1 start)).takeWhile
        (fun kv => bytesLe kv.1 stop)).filterMap
      (fun kv =>
        match decodeBincodeBytes (kv.1.drop ((bincodeBytes domain).length + 1)),
            kv.2 with
        | some url, some state => some (url, state)
        | _, _ => none)

/-! ## The rolling URL state store (`UrlStateDb`) -/

/-- The rolling sequence of shards, oldest first (directory sort order). -/
structure UrlStateDb : Type where
  shards : List UrlStateDbShard
deriving DecidableEq

/-- A freshly created shard: empty stores, zero approximate size. -/
def emptyShard : UrlStateDbShard := ⟨[], [], 0⟩

/-- Search the given shards in order, returning the first hit; a shard-level
panic aborts. `urlDbGet` passes the shards newest first. -/
def urlDbGetAux (domain : Domain) (url : UrlString) :
    List UrlStateDbShard → GetResult (Option UrlState)
  | [] => GetResult.ok none
  | s :: rest =>
    match shardGet s domain url with
    | GetResult.panic => GetResult.panic
    | GetResult.ok (some state) => GetResult.ok (some state)
    | GetResult.ok none => urlDbGetAux domain url rest

/-- `UrlStateDb::get`: search the shards in reverse creation order so the
newest write wins. -/
def urlDbGet (db : UrlStateDb) (domain : Domain) (url : UrlString) :
    GetResult (Option UrlState) :=
  urlDbGetAux domain url db.shards.reverse

/-- Apply `shardPutBatch` to the last (newest) shard of the list. -/
def updateLastShard (domain : Domain) (urls : List (UrlString × UrlState)) :
    List UrlStateDbShard → List UrlStateDbShard
  | [] => []
  | [s] => [shardPutBatch s domain urls]
  | s :: s' :: rest => s :: updateLastShard domain urls (s' :: rest)

/-- `UrlStateDb::put_batch`: `self.shards.last_mut().unwrap()` panics
(`none`) on an empty shard list; otherwise, roll over to a fresh shard when
the newest shard exceeds the size threshold, then write the batch into the
newest shard only. -/
def urlDbPutBatch (db : UrlStateDb) (domain : Domain)
    (urls : List (UrlString × UrlState)) : Option UrlStateDb :=
  match db.shards.getLast? with
  | none => none
  | some last =>
    let shards :=
      if MAX_URL_DB_SIZE_BYTES < last.approx_size_bytes then
        db.shards ++ [emptyShard]
      else db.shards
    some ⟨updateLastShard domain urls shards⟩

/-- `UrlStateDb::get_all_urls`: merge the per-shard enumerations through a
map so that an entry from a newer shard replaces an older shard's entry for
the same URL.  (The source drains a `HashMap`; its iteration order is
unspecified, here it is the insertion order of the association list.) -/
def urlDbGetAllUrls (db : UrlStateDb) (domain : Domain) :
    List (UrlString × UrlState) :=
  db.shards.foldl
    (fun res shard =>
      (shardGetAllUrls shard domain).foldl (fun res p => aput p.1 p.2 res) res)
    []

/-- What `UrlStateDb::open` observes of the file system: whether the store
directory exists, and the named shard subdirectories (with the shard each
one reopens to). -/
structure ShardDirListing : Type where
  dirExists : Bool
  subdirs : List (String × UrlStateDbShard)

/-- Insertion step of sorting the shard directory names ascending. -/
def insertByName (x : String × UrlStateDbShard) :
    List (String × UrlStateDbShard) → List (String × UrlStateDbShard)
  | [] => [x]
  | y :: ys => if x.1 < y.1 then x :: y :: ys else y :: insertByName x ys

/-- Sort the shard directory listing by name ascending (`shard_names.sort()`). -/
def sortByName : List (String × UrlStateDbShard) →
    List (String × UrlStateDbShard)
  | [] => []
  | x :: xs => insertByName x (sortByName xs)

/-- `UrlStateDb::open`: if the directory exists, open every subdirectory as a
shard in ascending name order — even when there are no subdirectories at all;
only when the directory does not exist is a first shard created. -/
def urlStateDbOpen (fs : ShardDirListing) : UrlStateDb :=
  if fs.dirExists then ⟨(sortByName fs.subdirs).map Prod.snd⟩
  else ⟨[emptyShard]⟩

/-! ## The domain state store (`DomainStateDb`) -/

/-- The domain state store: keys are `bincode(domain)`, values are decoded
`DomainState`s (the main development models only well-formed stored values;
`domainStateDbGetRaw` below keeps the decode-failure path). -/
abbrev DomainStore : Type := List (Bytes × DomainState)

/-- `DomainStateDb::get`. -/
def dsGet (db : DomainStore) (domain : Domain) : Option DomainState :=
  alookup (bincodeBytes domain) db

/-- `DomainStateDb::put`. -/
def dsPut (db : DomainStore) (domain : Domain) (state : DomainState) :
    DomainStore :=
  aput (bincodeBytes domain) state db

/-- `DomainStateDb::iter`: full iteration decoding each key, silently
skipping records that fail to decode. -/
def domainStateIter (db : DomainStore) : List (Domain × DomainState) :=
  db.filterMap (fun kv =>
    match decodeBincodeBytes kv.1 with
    | some domain => some (domain, kv.2)
    | none => none)

/-- `DomainStateDb::get` on a store holding raw (possibly corrupt) values:
the value decode uses `?`, so a decode failure is returned to the caller as
an error rather than panicking. -/
def domainStateDbGetRaw (db : List (Bytes × Option DomainState))
    (domain : Domain) : Except Unit (Option DomainState) :=
  match alookup (bincodeBytes domain) db with
  | none => Except.ok none
  | some (some state) => Except.ok (some state)
  | some none => Except.error ()

/-! ## The orchestrator (`CrawlDb`) -/

/-- A URL as the crawler sees it.  `Domain::from(&Url)` and `Url::as_str` are
defined outside the embedded file; modelled from the spec, the domain of a
URL is its normalized registrable host, and the textual `UrlString` is the
host followed by `0x2F` and the remainder of the URL text. -/
structure Url : Type where
  host : Bytes
  rest : Bytes
deriving DecidableEq

/-- Modelled from the spec: `Domain::from(&Url)` derives the URL's
normalized registrable host (the crawler's `Domain` type lives outside the
embedded sources). -/
def Url.toDomain (u : Url) : Domain := u.host

/-- Modelled from the spec: `UrlString::from(&Url)` is the URL's textual
form. -/
def Url.toUrlString (u : Url) : UrlString := u.host ++ 47 :: u.rest

/-- `UrlResponse`: the core only examines the `Redirected` variant. -/
inductive UrlResponse : Type where
  | redirected : Url → Url → UrlResponse
  | other : UrlResponse
deriving DecidableEq

/-- `JobResponse { domain, discovered_urls, url_responses }`. -/
structure JobResponse : Type where
  domain : Domain
  discovered_urls : List Url
  url_responses : List UrlResponse
deriving DecidableEq

/-- `UrlToInsert { url, different_domain }`. -/
structure UrlToInsert : Type where
  url : Url
  different_domain : Bool
deriving DecidableEq

/-- `Job { domain, urls, fetch_sitemap }`; `urls` keeps the sampler's return
order (FIFO). -/
structure Job : Type where
  domain : Domain
  fetch_sitemap : Bool
  urls : List UrlString
deriving DecidableEq

/-- The whole crawl frontier state: domain store, rolling URL store, and the
redirect store. -/
structure CrawlDb : Type where
  domain_state : DomainStore
  urls : UrlStateDb
  redirects : List (Url × Url)
deriving DecidableEq

/-- Append a discovered URL to its domain's bucket in the fan-out map
(`domains.entry(domain).or_default().push(..)`). -/
def multiPush (acc : List (Domain × List UrlToInsert)) (domain : Domain)
    (u : UrlToInsert) : List (Domain × List UrlToInsert) :=
  match acc with
  | [] => [(domain, [u])]
  | (d, us) :: rest =>
    if domain = d then (d, us ++ [u]) :: rest
    else (d, us) :: multiPush rest domain u

/-- The fan-out phase of `insert_urls`: group every discovered URL by its
domain, tagging it with `different_domain = (res.domain != domain)`.  The
source runs this with `par_iter` into a `DashMap`; it is modelled
sequentially in response order (the grouped contents are the same, only the
nondeterministic bucket order is fixed). -/
def fanOut (responses : List JobResponse) : List (Domain × List UrlToInsert) :=
  responses.foldl
    (fun acc res =>
      res.discovered_urls.foldl
        (fun acc url =>
          multiPush acc url.toDomain
            ⟨url, decide (res.domain ≠ url.toDomain)⟩)
        acc)
    []

/-- The redirect writes of the fan-out phase: every
`UrlResponse::Redirected { url, new_url }` is written to the redirect store;
write failures are swallowed (`.ok()`). -/
def applyRedirects (redirects : List (Url × Url))
    (responses : List JobResponse) : List (Url × Url) :=
  responses.foldl
    (fun st res =>
      res.url_responses.foldl
        (fun st ur =>
          match ur with
          | UrlResponse.redirected url new_url => aput url new_url st
          | UrlResponse.other => st)
        st)
    redirects

/-- The body of the per-URL loop of `insert_urls`: load the URL state from
the URL store (the store as it was before this domain's batch write — the
staged states in `url_states` are not visible to these reads); a missing URL
bumps `total_urls` and starts from the default state; a cross-domain link
adds `1.0` to the URL weight; the domain weight is raised to the URL weight
when exceeded. -/
def insertUrlStep (urlsDb : UrlStateDb) (domain : Domain)
    (acc : GetResult (DomainState × List (UrlString × UrlState)))
    (u : UrlToInsert) : GetResult (DomainState × List (UrlString × UrlState)) :=
  match acc with
  | GetResult.panic => GetResult.panic
  | GetResult.ok (domain_state, url_states) =>
    match urlDbGet urlsDb domain u.url.toUrlString with
    | GetResult.panic => GetResult.panic
    | GetResult.ok found =>
      let firstSeen : DomainState × UrlState :=
        match found with
        | some state => (domain_state, state)
        | none =>
          ({ domain_state with total_urls := domain_state.total_urls + 1 },
            urlStateDefault)
      let url_state :=
        if u.different_domain then
          { firstSeen.2 with weight := firstSeen.2.weight + 1 }
        else firstSeen.2
      let domain_state :=
        if firstSeen.1.weight < url_state.weight then
          { firstSeen.1 with weight := url_state.weight }
        else firstSeen.1
      GetResult.ok (domain_state, url_states ++ [(u.url.toUrlString, url_state)])

/-- The per-domain URL loop of `insert_urls`. -/
def processUrls (urlsDb : UrlStateDb) (domain : Domain)
    (domain_state : DomainState) (urls : List UrlToInsert) :
    GetResult (DomainState × List (UrlString × UrlState)) :=
  urls.foldl (insertUrlStep urlsDb domain) (GetResult.ok (domain_state, []))

/-- `HashSet::insert` on the set of nonempty domains. -/
def setInsert (d : Domain) (s : List Domain) : List Domain :=
  if d ∈ s then s else s ++ [d]

/-- Processing of one fan-out bucket inside `insert_urls`: load or create the
`DomainState` (creation also persists the fresh state immediately), record
the domain as nonempty, run the URL loop, batch-write the staged URL states,
and persist the final `DomainState`. -/
def insertUrlsGroup (crawl : CrawlDb) (nonempty : List Domain)
    (g : Domain × List UrlToInsert) : Option (CrawlDb × List Domain) :=
  let domain := g.1
  let first : DomainState × DomainStore :=
    match dsGet crawl.domain_state domain with
    | some state => (state, crawl.domain_state)
    | none =>
      (⟨0, DomainStatus.pending, 0⟩,
        dsPut crawl.domain_state domain ⟨0, DomainStatus.pending, 0⟩)
  let nonempty := if g.2 ≠ [] then setInsert domain nonempty else nonempty
  match processUrls crawl.urls domain first.1 g.2 with
  | GetResult.panic => none
  | GetResult.ok (domain_state, url_states) =>
    match urlDbPutBatch crawl.urls domain url_states with
    | none => none
    | some urls' =>
      some ({ crawl with
                urls := urls',
                domain_state := dsPut first.2 domain domain_state },
            nonempty)

/-- The sequential phase of `insert_urls` over all fan-out buckets. -/
def insertGroups (crawl : CrawlDb) (nonempty : List Domain) :
    List (Domain × List UrlToInsert) → Option (CrawlDb × List Domain)
  | [] => some (crawl, nonempty)
  | g :: rest =>
    match insertUrlsGroup crawl nonempty g with
    | none => none
    | some (crawl', nonempty') => insertGroups crawl' nonempty' rest

/-- `CrawlDb::insert_urls`: fan out the responses (writing redirects
best-effort on the way), then process each domain bucket sequentially,
returning the set of domains that received at least one discovered URL.
`none` models a panic (corrupt stored URL state, or an empty shard list). -/
def insert_urls (crawl : CrawlDb) (responses : List JobResponse) :
    Option (CrawlDb × List Domain) :=
  insertGroups
    { crawl with redirects := applyRedirects crawl.redirects responses } []
    (fanOut responses)

/-- The marking loop of `sample_domains`: for each sampled domain,
load-or-default its state, set it `CrawlInProgress`, persist. -/
def markCrawlInProgress (db : DomainStore) (sampled : List Domain) :
    DomainStore :=
  sampled.foldl
    (fun acc d =>
      let st := (dsGet acc d).getD domainStateDefault
      dsPut acc d { st with status := DomainStatus.crawlInProgress })
    db

/-- `CrawlDb::sample_domains`: stream all domain states, keep the `Pending`
ones with their weights, reservoir-sample `num_jobs` of them, then mark every
sampled domain `CrawlInProgress` (load-or-default) and persist it. -/
def sample_domains (prio : Nat → ℤ → ℚ) (db : DomainStore) (num_jobs : Nat) :
    DomainStore × List Domain :=
  let sampled :=
    weighted_sample prio
      ((domainStateIter db).filterMap
        (fun p =>
          if p.2.status = DomainStatus.pending then some (p.1, p.2.weight)
          else none))
      num_jobs
  (markCrawlInProgress db sampled, sampled)

/-- `max_by(partial_cmp).unwrap_or(0.0)` over a list of weights: the maximum
of a nonempty list, `0` for an empty one. -/
def maxByOr0 : List ℤ → ℤ
  | [] => 0
  | w :: ws => ws.foldl max w

/-- For each sampled URL, load its current state from the store (before the
batch write), set it to `Crawling`, and stage it; a corrupt stored state
panics. -/
def buildNewStates (urlsDb : UrlStateDb) (domain : Domain) :
    List UrlString → GetResult (List (UrlString × UrlState))
  | [] => GetResult.ok []
  | url :: rest =>
    match urlDbGet urlsDb domain url with
    | GetResult.panic => GetResult.panic
    | GetResult.ok found =>
      match buildNewStates urlsDb domain rest with
      | GetResult.panic => GetResult.panic
      | GetResult.ok states =>
        GetResult.ok
          ((url, { found.getD urlStateDefault with
                     status := UrlStatus.crawling }) :: states)

/-- The per-domain body of `prepare_jobs`: enumerate the domain's URLs,
filter to the `Pending` ones, sample `urls_per_job` of them, mark the
sampled URLs `Crawling` and batch-write them, then recompute the domain
weight as the maximum weight among the URLs of the *snapshot* whose status
is `Pending` (the snapshot predates the batch write, so the just-sampled
URLs still count), and emit the job. -/
def prepareJob (prio : Nat → ℤ → ℚ) (ds : DomainStore) (urlsDb : UrlStateDb)
    (domain : Domain) (urls_per_job : Nat) :
    Option (DomainStore × UrlStateDb × Job) :=
  let urls := urlDbGetAllUrls urlsDb domain
  let available_urls :=
    urls.filterMap
      (fun p =>
        if p.2.status = UrlStatus.pending then some (p.1, p.2.weight)
        else none)
  let sampled := weighted_sample prio available_urls urls_per_job
  match buildNewStates urlsDb domain sampled with
  | GetResult.panic => none
  | GetResult.ok new_url_states =>
    match urlDbPutBatch urlsDb domain new_url_states with
    | none => none
    | some urlsDb' =>
      let domain_state := (dsGet ds domain).getD domainStateDefault
      let domain_state :=
        { domain_state with
            weight :=
              maxByOr0
                (urls.filterMap
                  (fun p =>
                    if p.2.status = UrlStatus.pending then some p.2.weight
                    else none)) }
      some (dsPut ds domain domain_state, urlsDb',
        ⟨domain, false, sampled⟩)

/-- `CrawlDb::prepare_jobs`: process the requested domains sequentially,
emitting one job per domain in input order; `none` models a panic. -/
def prepare_jobs (prio : Nat → ℤ → ℚ) (ds : DomainStore) (urlsDb : UrlStateDb) :
    List Domain → Nat → Option (DomainStore × UrlStateDb × List Job)
  | [], _ => some (ds, urlsDb, [])
  | domain :: rest, urls_per_job =>
    match prepareJob prio ds urlsDb domain urls_per_job with
    | none => none
    | some (ds', urlsDb', job) =>
      match prepare_jobs prio ds' urlsDb' rest urls_per_job with
      | none => none
      | some (ds'', urlsDb'', jobs) => some (ds'', urlsDb'', job :: jobs)

/-! ## Auxiliary lemmas for the claim theorems -/

theorem foldl_max_ge_init (ws : List ℤ) (a : ℤ) : a ≤ ws.foldl max a := by
  induction ws generalizing a with
  | nil => exact le_refl a
  | cons w t ih => exact le_trans (le_max_left a w) (ih (max a w))

theorem foldl_max_ge_mem {w : ℤ} (ws : List ℤ) (a : ℤ) (h : w ∈ ws) :
    w ≤ ws.foldl max a := by
  induction ws generalizing a with
  | nil => cases h
  | cons x t ih =>
    rcases List.mem_cons.mp h with rfl | h'
    · exact le_trans (le_max_right a w) (foldl_max_ge_init t (max a w))
    · exact ih (max a x) h'

theorem maxByOr0_ge {w : ℤ} {l : List ℤ} (h : w ∈ l) : w ≤ maxByOr0 l := by
  cases l with
  | nil => cases h
  | cons a t =>
    rcases List.mem_cons.mp h with rfl | h'
    · exact foldl_max_ge_init t w
    · exact foldl_max_ge_mem t a h'

theorem dropWhile_eq_self_of_all_false {α : Type} (p : α → Bool) (l : List α)
    (h : ∀ x ∈ l, p x = false) : l.dropWhile p = l := by
  cases l with
  | nil => rfl
  | cons x t =>
    have hx : p x = false := h x (List.mem_cons_self _ _)
    simp [List.dropWhile_cons, hx]

theorem takeWhile_eq_self_of_all_true {α : Type} (p : α → Bool) (l : List α)
    (h : ∀ x ∈ l, p x = true) : l.takeWhile p = l := by
  induction l with
  | nil => rfl
  | cons x t ih =>
    have hx : p x = true := h x (List.mem_cons_self _ _)
    have ht : ∀ y ∈ t, p y = true := fun y hy => h y (List.mem_cons_of_mem _ hy)
    simp [List.takeWhile_cons, hx, ih ht]

/-! ## Concrete fixtures used by counterexamples and witnesses -/

/-- A fixed rng oracle for concrete runs (any oracle works for the theorems
below; this one is the constant-0 priority). -/
def oraclePrioZero : Nat → ℤ → ℚ := fun _ _ => 0

/-- The composite key of URL `[117]` under domain `[100]`. -/
def fixKey : Bytes := compositeKey [100] [117]

/-- A single-shard URL store holding one Pending URL of weight 5 under
domain `[100]`, with its range record. -/
def fixUrls : UrlStateDb :=
  ⟨[⟨[(fixKey, some ⟨5, UrlStatus.pending⟩)],
     [(bincodeBytes [100], (fixKey, fixKey))], 0⟩]⟩

/-- A domain store in which domain `[100]` is Pending with weight 5 and one
known URL. -/
def fixDs : DomainStore := [(bincodeBytes [100], ⟨5, DomainStatus.pending, 1⟩)]

/-! ## Claim C7 -/

/-- C7 (code bug): opening the URL state store on a directory that exists
but contains no shard subdirectories does NOT create a first shard — the
store comes up with zero shards and the next `put_batch` hits
`shards.last_mut().unwrap()` and panics; only opening a non-existing
directory creates the first shard. -/
theorem claim_C7 :
    (urlStateDbOpen ⟨true, []⟩).shards = [] ∧
    urlDbPutBatch (urlStateDbOpen ⟨true, []⟩) [100] [] = none ∧
    (urlStateDbOpen ⟨false, []⟩).shards.length = 1 := by
  refine ⟨rfl, rfl, rfl⟩

/-! ## Claim C8 -/

/-- C8: for every rng oracle, every stream of length `L` and every `k`, the
weighted reservoir sampler returns exactly `min L k` items; when the stream
yields fewer than `k` items it returns all of them (as a permutation of the
stream, so duplicates appear exactly as often as the stream emits them); and
`k = 0` returns the empty result. -/
theorem claim_C8 (T : Type) (prio : Nat → ℤ → ℚ) (items : List (T × ℤ))
    (k : Nat) :
    (weighted_sample prio items k).length = min items.length k ∧
    (items.length ≤ k →
      List.Perm (weighted_sample prio items k) (items.map Prod.fst)) ∧
    (k = 0 → weighted_sample prio items k = []) := by
  refine ⟨?_, ?_, ?_⟩
  · unfold weighted_sample
    rw [List.length_map, weightedSampleAux_length k prio items 0 [] (by simp)]
    simp
  · intro h
    unfold weighted_sample
    have hperm := weightedSampleAux_all_kept k prio items 0 []
      (by simpa using h)
    simpa using hperm
  · intro hk
    subst hk
    have hlen : (weightedSampleAux 0 prio items 0 ([] : List (T × ℚ))).length = 0 := by
      rw [weightedSampleAux_length 0 prio items 0 [] (by simp)]
      simp
    unfold weighted_sample
    rw [List.length_eq_zero.mp hlen]
    rfl

/-- Witness for C8 at the test stream of the source's `sampling` test. -/
theorem claim_C8_witness :
    (weighted_sample oraclePrioZero
        [((0 : Nat), (1 : ℤ)), (1, 2), (2, 3), (3, 4)] 10).length = min 4 10 ∧
    List.Perm
      (weighted_sample oraclePrioZero
        [((0 : Nat), (1 : ℤ)), (1, 2), (2, 3), (3, 4)] 10)
      [0, 1, 2, 3] ∧
    weighted_sample oraclePrioZero
        [((0 : Nat), (1 : ℤ)), (1, 2), (2, 3), (3, 4)] 0 = [] :=
  ⟨(claim_C8 Nat oraclePrioZero [((0 : Nat), (1 : ℤ)), (1, 2), (2, 3), (3, 4)] 10).1,
   (claim_C8 Nat oraclePrioZero [((0 : Nat), (1 : ℤ)), (1, 2), (2, 3), (3, 4)] 10).2.1
     (by decide),
   (claim_C8 Nat oraclePrioZero [((0 : Nat), (1 : ℤ)), (1, 2), (2, 3), (3, 4)] 0).2.2
     rfl⟩

/-! ## Claim C9 -/

/-- C9 (counterexample): the separator byte `0x2F = 47` CAN appear inside
`serialize(domain)`: bincode's length prefix is the little-endian `u64`
byte-length, so any domain of byte length 47 (here 47 letters `a`) has 47 as
the first byte of its serialization, refuting the claim that the separator
never appears inside `serialize(domain)`. -/
theorem claim_C9_counterexample :
    (47 : Nat) ∈ bincodeBytes (List.replicate 47 97) := by decide

/-- C9 (amended): the separator byte `0x2F` appears inside
`serialize(domain)` exactly when it occurs among the 8 length-prefix bytes
of the domain's byte length (e.g. any domain of length 47) or within the
domain's own bytes; for a domain whose host bytes avoid `0x2F` and whose
length's little-endian bytes avoid `0x2F`, the composite-key prefix is
unambiguous. -/
theorem claim_C9 (d : Domain) :
    (47 : Nat) ∈ bincodeBytes d ↔ 47 ∈ u64le d.length ∨ 47 ∈ d := by
  simp [bincodeBytes]

/-! ## Claim C6 -/

/-- C6 (counterexample): a decode failure on the value returned by the point
get `UrlStateDbShard::get` is NOT propagated as a fallible result — the
source calls `bincode::deserialize(&state_bytes).unwrap()`, so a corrupt
stored value panics, refuting the claim that every non-iteration decode
failure is surfaced to the caller and that the core never panics on such
failures. -/
theorem claim_C6_counterexample :
    shardGet ⟨[(fixKey, none)], [], 0⟩ [100] [117] = GetResult.panic := by
  decide

/-- C6 (amended): inside a full-shard iteration a per-record decode failure
is silently skipped and the iteration continues (removing an undecodable
record in range does not change `get_all_urls` at all); a value-decode
failure in `DomainStateDb::get` (and the other point gets written with `?`)
propagates to the caller as a fallible result; but a value-decode failure in
the point get `UrlStateDbShard::get` panics via `unwrap` instead of
propagating. -/
theorem claim_C6 :
    (∀ (db1 db2 : List (Bytes × Option UrlState)) (kbad : Bytes)
        (ranges : List (Bytes × (Bytes × Bytes))) (n : Nat) (domain : Domain)
        (start stop : Bytes),
      alookup (bincodeBytes domain) ranges = some (start, stop) →
      (∀ kv ∈ db1 ++ (kbad, (none : Option UrlState)) :: db2,
        bytesLe start kv.1 = true ∧ bytesLe kv.1 stop = true) →
      shardGetAllUrls ⟨db1 ++ (kbad, none) :: db2, ranges, n⟩ domain =
        shardGetAllUrls ⟨db1 ++ db2, ranges, n⟩ domain) ∧
    (∀ (db : List (Bytes × Option DomainState)) (domain : Domain),
      alookup (bincodeBytes domain) db = some none →
      domainStateDbGetRaw db domain = Except.error ()) ∧
    (∀ (shard : UrlStateDbShard) (domain : Domain) (url : UrlString),
      alookup (compositeKey domain url) shard.db = some none →
      shardGet shard domain url = GetResult.panic) := by
  refine ⟨?_, ?_, ?_⟩
  · intro db1 db2 kbad ranges n domain start stop hr hin
    have hfalse : ∀ l : List (Bytes × Option UrlState),
        (∀ kv ∈ l, bytesLe start kv.1 = true ∧ bytesLe kv.1 stop = true) →
        ∀ kv ∈ l, (fun kv : Bytes × Option UrlState => bytesLt kv.1 start) kv = false := by
      intro l hl kv hkv
      have := (hl kv hkv).1
      unfold bytesLe at this
      simpa using this
    have hin' : ∀ kv ∈ db1 ++ db2,
        bytesLe start kv.1 = true ∧ bytesLe kv.1 stop = true := by
      intro kv hkv
      apply hin
      rcases List.mem_append.mp hkv with h | h
      · exact List.mem_append.mpr (Or.inl h)
      · exact List.mem_append.mpr (Or.inr (List.mem_cons_of_mem _ h))
    unfold shardGetAllUrls
    rw [hr]
    dsimp only
    rw [dropWhile_eq_self_of_all_false _ _ (hfalse _ hin),
      dropWhile_eq_self_of_all_false _ _ (hfalse _ hin')]
    rw [takeWhile_eq_self_of_all_true _ _ (fun kv hkv => (hin kv hkv).2),
      takeWhile_eq_self_of_all_true _ _ (fun kv hkv => (hin' kv hkv).2)]
    rw [List.filterMap_append, List.filterMap_append]
    congr 1
    rw [List.filterMap_cons]
    cases hdec : decodeBincodeBytes (kbad.drop ((bincodeBytes domain).length + 1)) with
    | none => simp
    | some u => simp
  · intro db domain h
    unfold domainStateDbGetRaw
    rw [h]
  · intro shard domain url h
    unfold shardGet
    rw [h]

/-- Witness for the amended C6 at a concrete one-record corrupt shard and a
concrete corrupt domain store. -/
theorem claim_C6_witness :
    shardGetAllUrls
        ⟨[(fixKey, none)], [(bincodeBytes [100], (fixKey, fixKey))], 0⟩ [100] =
      shardGetAllUrls ⟨[], [(bincodeBytes [100], (fixKey, fixKey))], 0⟩ [100] ∧
    domainStateDbGetRaw [(bincodeBytes [100], none)] [100] = Except.error () :=
  ⟨claim_C6.1 [] [] fixKey [(bincodeBytes [100], (fixKey, fixKey))] 0 [100]
      fixKey fixKey (by decide) (by decide),
   claim_C6.2.1 [(bincodeBytes [100], none)] [100] (by decide)⟩

/-! ## Claim C3 -/

theorem compositeKey_inj_url {d u u' : Bytes}
    (h : compositeKey d u = compositeKey d u') : u = u' := by
  unfold compositeKey at h
  have h2 := List.append_cancel_left h
  injection h2 with _ h3
  exact bincodeBytes_injective h3

theorem getLast?_decomp {α : Type} {l : List α} {a : α}
    (h : l.getLast? = some a) : ∃ l', l = l' ++ [a] := by
  induction l with
  | nil => cases h
  | cons x t ih =>
    cases t with
    | nil =>
      refine ⟨[], ?_⟩
      have : x = a := by simpa using h
      simp [this]
    | cons y t' =>
      rw [List.getLast?_cons_cons] at h
      obtain ⟨l', hl⟩ := ih h
      exact ⟨x :: l', by simp [hl]⟩

theorem updateLastShard_cons_cons (domain : Domain)
    (urls : List (UrlString × UrlState)) (x y : UrlStateDbShard)
    (ys : List UrlStateDbShard) :
    updateLastShard domain urls (x :: y :: ys) =
      x :: updateLastShard domain urls (y :: ys) := rfl

theorem updateLastShard_append (domain : Domain)
    (urls : List (UrlString × UrlState)) (init : List UrlStateDbShard)
    (s : UrlStateDbShard) :
    updateLastShard domain urls (init ++ [s]) =
      init ++ [shardPutBatch s domain urls] := by
  induction init with
  | nil => rfl
  | cons x t ih =>
    cases t with
    | nil => rfl
    | cons y ys =>
      rw [List.cons_append, List.cons_append, updateLastShard_cons_cons,
        ← List.cons_append, ih]
      rfl

theorem foldBatch_pair_snd (urls : List (UrlString × UrlState))
    (domain_bytes : Bytes) (r : Option (Bytes × Bytes))
    (db : List (Bytes × Option UrlState)) :
    (urls.foldl
        (fun acc p =>
          (some (updateRange acc.1 (domain_bytes ++ 47 :: bincodeBytes p.1)),
            sortedPut (domain_bytes ++ 47 :: bincodeBytes p.1) (some p.2) acc.2))
        (r, db)).2 =
      urls.foldl
        (fun acc p =>
          sortedPut (domain_bytes ++ 47 :: bincodeBytes p.1) (some p.2) acc)
        db := by
  induction urls generalizing r db with
  | nil => rfl
  | cons p t ih => exact ih _ _

theorem shardPutBatch_db (shard : UrlStateDbShard) (domain : Domain)
    (urls : List (UrlString × UrlState)) :
    (shardPutBatch shard domain urls).db =
      urls.foldl
        (fun acc p => sortedPut (compositeKey domain p.1) (some p.2) acc)
        shard.db := by
  unfold shardPutBatch
  dsimp only
  rw [foldBatch_pair_snd]
  rfl

theorem alookup_foldBatch_not_mem (domain : Domain)
    (urls : List (UrlString × UrlState)) (url : UrlString)
    (db : List (Bytes × Option UrlState)) (h : url ∉ urls.map Prod.fst) :
    alookup (compositeKey domain url)
        (urls.foldl
          (fun acc p => sortedPut (compositeKey domain p.1) (some p.2) acc)
          db) =
      alookup (compositeKey domain url) db := by
  induction urls generalizing db with
  | nil => rfl
  | cons p t ih =>
    simp only [List.map_cons, List.mem_cons] at h
    push_neg at h
    rw [List.foldl_cons, ih _ h.2]
    exact alookup_sortedPut_ne _ _ (fun hc => h.1 (compositeKey_inj_url hc))

theorem alookup_foldBatch_coherent (domain : Domain)
    (urls : List (UrlString × UrlState)) (url : UrlString) (state : UrlState)
    (db : List (Bytes × Option UrlState)) (hmem : (url, state) ∈ urls)
    (hcoh : ∀ q ∈ urls, q.1 = url → q.2 = state) :
    alookup (compositeKey domain url)
        (urls.foldl
          (fun acc p => sortedPut (compositeKey domain p.1) (some p.2) acc)
          db) =
      some (some state) := by
  induction urls generalizing db with
  | nil => cases hmem
  | cons p t ih =>
    rw [List.foldl_cons]
    by_cases hp : url = p.1
    · have hps : p.2 = state := hcoh p (List.mem_cons_self _ _) hp.symm
      by_cases ht : url ∈ t.map Prod.fst
      · obtain ⟨q, hq, hq1⟩ := List.mem_map.mp ht
        have hq2 : q.2 = state := hcoh q (List.mem_cons_of_mem _ hq) hq1
        have hmem' : (url, state) ∈ t := by
          have : q = (url, state) := by
            obtain ⟨q1, q2⟩ := q
            simp only at hq1 hq2
            rw [hq1, hq2]
          rwa [this] at hq
        exact ih _ hmem' (fun q hq hq1 => hcoh q (List.mem_cons_of_mem _ hq) hq1)
      · rw [alookup_foldBatch_not_mem domain t url _ ht]
        have hkey : compositeKey domain url = compositeKey domain p.1 := by rw [hp]
        rw [hkey, ← hps]
        exact alookup_sortedPut_self _ _ _
    · have hmem' : (url, state) ∈ t := by
        rcases List.mem_cons.mp hmem with h | h
        · exact absurd (congrArg Prod.fst h) hp
        · exact h
      exact ih _ hmem' (fun q hq hq1 => hcoh q (List.mem_cons_of_mem _ hq) hq1)

theorem urlDbGet_pre_last (pre : List UrlStateDbShard) (s0 : UrlStateDbShard)
    (domain : Domain) (url : UrlString) (urls : List (UrlString × UrlState))
    (v : UrlState)
    (hlook : alookup (compositeKey domain url)
        (urls.foldl
          (fun acc p => sortedPut (compositeKey domain p.1) (some p.2) acc)
          s0.db) =
      some (some v)) :
    urlDbGet ⟨updateLastShard domain urls (pre ++ [s0])⟩ domain url =
      GetResult.ok (some v) := by
  unfold urlDbGet
  dsimp only
  rw [updateLastShard_append, List.reverse_append]
  simp only [List.reverse_cons, List.reverse_nil, List.nil_append,
    List.singleton_append]
  unfold urlDbGetAux shardGet
  rw [shardPutBatch_db, hlook]

theorem urlDbGet_after_putBatch {db db' : UrlStateDb} {domain : Domain}
    {urls : List (UrlString × UrlState)} {url : UrlString} {v : UrlState}
    (hput : urlDbPutBatch db domain urls = some db')
    (hlook : ∀ d0 : List (Bytes × Option UrlState),
      alookup (compositeKey domain url)
          (urls.foldl
            (fun acc p => sortedPut (compositeKey domain p.1) (some p.2) acc)
            d0) =
        some (some v)) :
    urlDbGet db' domain url = GetResult.ok (some v) := by
  unfold urlDbPutBatch at hput
  cases hlast : db.shards.getLast? with
  | none => rw [hlast] at hput; cases hput
  | some last =>
    rw [hlast] at hput
    dsimp only at hput
    obtain ⟨init, hinit⟩ := getLast?_decomp hlast
    by_cases hroll : MAX_URL_DB_SIZE_BYTES < last.approx_size_bytes
    · rw [if_pos hroll] at hput
      injection hput with hput
      subst hput
      exact urlDbGet_pre_last db.shards emptyShard domain url urls v (hlook _)
    · rw [if_neg hroll] at hput
      injection hput with hput
      subst hput
      rw [hinit]
      exact urlDbGet_pre_last init last domain url urls v (hlook _)

/-- C3: for every `(domain, url, state)` written via `put_batch` (every
binding of `url` in the batch carrying `state`), a subsequent
`get(domain, url)` returns exactly that state; this holds whether or not the
write rolled over to a new shard, because `put_batch` writes only to the
newest shard and `get` searches the shards in reverse creation order,
returning the first hit. -/
theorem claim_C3 (db : UrlStateDb) (domain : Domain)
    (urls : List (UrlString × UrlState)) (url : UrlString) (state : UrlState)
    (db' : UrlStateDb) (hput : urlDbPutBatch db domain urls = some db')
    (hmem : (url, state) ∈ urls)
    (hcoh : ∀ q ∈ urls, q.1 = url → q.2 = state) :
    urlDbGet db' domain url = GetResult.ok (some state) :=
  urlDbGet_after_putBatch hput
    (fun d0 => alookup_foldBatch_coherent domain urls url state d0 hmem hcoh)

/-- Witness for C3: a concrete write of one URL into a one-shard store. -/
theorem claim_C3_witness :
    urlDbGet ⟨[shardPutBatch emptyShard [100] [([117], ⟨2, UrlStatus.pending⟩)]]⟩
        [100] [117] =
      GetResult.ok (some ⟨2, UrlStatus.pending⟩) :=
  claim_C3 ⟨[emptyShard]⟩ [100] [([117], ⟨2, UrlStatus.pending⟩)] [117]
    ⟨2, UrlStatus.pending⟩
    ⟨[shardPutBatch emptyShard [100] [([117], ⟨2, UrlStatus.pending⟩)]]⟩
    (by decide) (by decide) (by decide)

/-! ## Claim C4 -/

theorem bincodeBytes_ne_of_ne {d d' : Domain} (h : d ≠ d') :
    bincodeBytes d ≠ bincodeBytes d' :=
  fun hc => h (bincodeBytes_injective hc)

theorem markCrawlInProgress_cons (db : DomainStore) (x : Domain)
    (t : List Domain) :
    markCrawlInProgress db (x :: t) =
      markCrawlInProgress
        (dsPut db x
          { (dsGet db x).getD domainStateDefault with
              status := DomainStatus.crawlInProgress })
        t := rfl

theorem dsGet_markCrawl_not_mem (db : DomainStore) (L : List Domain)
    (d : Domain) (h : d ∉ L) :
    dsGet (markCrawlInProgress db L) d = dsGet db d := by
  induction L generalizing db with
  | nil => rfl
  | cons x t ih =>
    simp only [List.mem_cons] at h
    push_neg at h
    rw [markCrawlInProgress_cons, ih _ h.2]
    exact alookup_aput_ne _ _ (bincodeBytes_ne_of_ne h.1)

theorem dsGet_markCrawl_mem (db : DomainStore) (L : List Domain) (d : Domain)
    (h : d ∈ L) :
    ∃ st, dsGet (markCrawlInProgress db L) d = some st ∧
      st.status = DomainStatus.crawlInProgress := by
  induction L generalizing db with
  | nil => cases h
  | cons x t ih =>
    by_cases hd : d ∈ t
    · rw [markCrawlInProgress_cons]
      exact ih _ hd
    · have hx : d = x := by
        rcases List.mem_cons.mp h with h' | h'
        · exact h'
        · exact absurd h' hd
      subst hx
      rw [markCrawlInProgress_cons, dsGet_markCrawl_not_mem _ _ _ hd]
      exact ⟨_, alookup_aput_self _ _ _, rfl⟩

theorem mem_keys_aput {α β : Type} [DecidableEq α] {k x : α} (v : β)
    (l : List (α × β)) (h : x ∈ (aput k v l).map Prod.fst) :
    x = k ∨ x ∈ l.map Prod.fst := by
  induction l with
  | nil =>
    simp [aput] at h
    exact Or.inl h
  | cons p t ih =>
    obtain ⟨k', v'⟩ := p
    by_cases hk : k = k'
    · subst hk
      simp only [aput, if_true, List.map_cons, List.mem_cons] at h ⊢
      tauto
    · simp only [aput, hk, if_false, List.map_cons, List.mem_cons] at h ⊢
      rcases h with h | h
      · tauto
      · rcases ih h with h' | h' <;> tauto

theorem aput_keys_nodup {α β : Type} [DecidableEq α] (k : α) (v : β)
    (l : List (α × β)) (h : (l.map Prod.fst).Nodup) :
    ((aput k v l).map Prod.fst).Nodup := by
  induction l with
  | nil => simp [aput]
  | cons p t ih =>
    obtain ⟨k', v'⟩ := p
    simp only [List.map_cons, List.nodup_cons] at h
    by_cases hk : k = k'
    · subst hk
      simp only [aput, if_true, List.map_cons, List.nodup_cons]
      exact h
    · simp only [aput, hk, if_false, List.map_cons, List.nodup_cons]
      refine ⟨?_, ih h.2⟩
      intro hc
      rcases mem_keys_aput v t hc with h' | h'
      · exact hk h'.symm
      · exact h.1 h'

theorem markCrawl_keys_nodup (db : DomainStore) (L : List Domain)
    (h : (db.map Prod.fst).Nodup) :
    ((markCrawlInProgress db L).map Prod.fst).Nodup := by
  induction L generalizing db with
  | nil => exact h
  | cons x t ih =>
    rw [markCrawlInProgress_cons]
    exact ih _ (aput_keys_nodup _ _ _ h)

theorem alookup_of_mem_nodup {α β : Type} [DecidableEq α] {k : α} {v : β}
    {l : List (α × β)} (hmem : (k, v) ∈ l)
    (hnd : (l.map Prod.fst).Nodup) : alookup k l = some v := by
  induction l with
  | nil => cases hmem
  | cons p t ih =>
    obtain ⟨k', v'⟩ := p
    simp only [List.map_cons, List.nodup_cons] at hnd
    rcases List.mem_cons.mp hmem with h | h
    · obtain ⟨h1, h2⟩ := Prod.mk.injEq .. ▸ h
      simp [alookup, h1, h2]
    · have hk : k ≠ k' := by
        intro he
        subst he
        exact hnd.1 (List.mem_map.mpr ⟨(k, v), h, rfl⟩)
      simp [alookup, hk, ih h hnd.2]

theorem sample_domains_snd (prio : Nat → ℤ → ℚ) (db : DomainStore) (n : Nat) :
    (sample_domains prio db n).2 =
      weighted_sample prio
        ((domainStateIter db).filterMap
          (fun p =>
            if p.2.status = DomainStatus.pending then some (p.1, p.2.weight)
            else none))
        n := rfl

theorem sample_domains_fst (prio : Nat → ℤ → ℚ) (db : DomainStore) (n : Nat) :
    (sample_domains prio db n).1 =
      markCrawlInProgress db (sample_domains prio db n).2 := rfl

theorem sampled_pending {prio : Nat → ℤ → ℚ} {db : DomainStore} {n : Nat}
    {d : Domain} (hnd : (db.map Prod.fst).Nodup)
    (hd : d ∈ (sample_domains prio db n).2) :
    ∃ st, dsGet db d = some st ∧ st.status = DomainStatus.pending := by
  rw [sample_domains_snd] at hd
  have hd' := mem_weighted_sample hd
  obtain ⟨⟨d', w⟩, hmem, hfst⟩ := List.mem_map.mp hd'
  obtain ⟨p, hp, hpf⟩ := List.mem_filterMap.mp hmem
  by_cases hstat : p.2.status = DomainStatus.pending
  · rw [if_pos hstat] at hpf
    injection hpf with hpf
    obtain ⟨hp1, hp2⟩ := Prod.mk.injEq .. ▸ hpf.symm
    obtain ⟨kv, hkv, hkvf⟩ := List.mem_filterMap.mp hp
    cases hdec : decodeBincodeBytes kv.1 with
    | none => rw [hdec] at hkvf; cases hkvf
    | some dom =>
      rw [hdec] at hkvf
      injection hkvf with hkvf
      have hdom : dom = d := by
        have h1 : dom = p.1 := congrArg Prod.fst hkvf
        rw [h1, ← hp1]
        exact hfst
      have hkey : kv.1 = bincodeBytes d := by
        rw [← hdom]
        exact decodeBincodeBytes_eq_some hdec
      have hkv2 : kv = (bincodeBytes d, kv.2) := by
        rw [← hkey]
      refine ⟨kv.2, ?_, ?_⟩
      · exact alookup_of_mem_nodup (hkv2 ▸ hkv) hnd
      · have h2 : kv.2 = p.2 := by rw [← hkvf]
        rw [h2]
        exact hstat
  · rw [if_neg hstat] at hpf
    cases hpf

/-- C4: `sample_domains` only returns domains whose stored status was
`Pending`; every returned domain's status is `CrawlInProgress` afterwards;
domains not returned are untouched; and a second `sample_domains` call
immediately after the first (no `set_domain_status` in between) returns none
of the previously sampled domains. Stated for a store with no duplicate
keys, as every store built by `dsPut` is. -/
theorem claim_C4 (prio prio2 : Nat → ℤ → ℚ) (db : DomainStore) (n n2 : Nat)
    (hnd : (db.map Prod.fst).Nodup) :
    (∀ d ∈ (sample_domains prio db n).2,
      ∃ st, dsGet db d = some st ∧ st.status = DomainStatus.pending) ∧
    (∀ d ∈ (sample_domains prio db n).2,
      ∃ st, dsGet (sample_domains prio db n).1 d = some st ∧
        st.status = DomainStatus.crawlInProgress) ∧
    (∀ d : Domain, d ∉ (sample_domains prio db n).2 →
      dsGet (sample_domains prio db n).1 d = dsGet db d) ∧
    (∀ d ∈ (sample_domains prio2 (sample_domains prio db n).1 n2).2,
      d ∉ (sample_domains prio db n).2) := by
  refine ⟨?_, ?_, ?_, ?_⟩
  · intro d hd
    exact sampled_pending hnd hd
  · intro d hd
    rw [sample_domains_fst]
    exact dsGet_markCrawl_mem _ _ _ hd
  · intro d hd
    rw [sample_domains_fst]
    exact dsGet_markCrawl_not_mem _ _ _ hd
  · intro d hd hd1
    have hnd' : (((sample_domains prio db n).1).map Prod.fst).Nodup := by
      rw [sample_domains_fst]
      exact markCrawl_keys_nodup _ _ hnd
    obtain ⟨st, hst, hpend⟩ := sampled_pending hnd' hd
    obtain ⟨st', hst', hcip⟩ : ∃ st', dsGet (sample_domains prio db n).1 d = some st' ∧
        st'.status = DomainStatus.crawlInProgress := by
      rw [sample_domains_fst]
      exact dsGet_markCrawl_mem _ _ _ hd1
    rw [hst] at hst'
    injection hst' with hst'
    rw [← hst'] at hcip
    rw [hpend] at hcip
    cases hcip

/-- Witness for C4 at a one-domain Pending store sampled twice. -/
theorem claim_C4_witness :
    (∀ d ∈ (sample_domains oraclePrioZero fixDs 1).2,
      ∃ st, dsGet fixDs d = some st ∧ st.status = DomainStatus.pending) ∧
    (∀ d ∈ (sample_domains oraclePrioZero fixDs 1).2,
      ∃ st, dsGet (sample_domains oraclePrioZero fixDs 1).1 d = some st ∧
        st.status = DomainStatus.crawlInProgress) ∧
    (∀ d : Domain, d ∉ (sample_domains oraclePrioZero fixDs 1).2 →
      dsGet (sample_domains oraclePrioZero fixDs 1).1 d = dsGet fixDs d) ∧
    (∀ d ∈ (sample_domains oraclePrioZero
        (sample_domains oraclePrioZero fixDs 1).1 1).2,
      d ∉ (sample_domains oraclePrioZero fixDs 1).2) :=
  claim_C4 oraclePrioZero oraclePrioZero fixDs 1 1 (by decide)

/-! ## Claims C1 and C10 -/

/-- The URL store of `fixUrls` after its one URL has been marked Crawling. -/
def fixUrlsPost : UrlStateDb :=
  ⟨[⟨[(fixKey, some ⟨5, UrlStatus.crawling⟩)],
     [(bincodeBytes [100], (fixKey, fixKey))], 0⟩]⟩

theorem weighted_sample_nil (T : Type) (prio : Nat → ℤ → ℚ) (k : Nat) :
    weighted_sample prio ([] : List (T × ℤ)) k = [] := rfl

theorem prepareJob_inv (prio : Nat → ℤ → ℚ) (ds : DomainStore)
    (urlsDb : UrlStateDb) (d : Domain) (k : Nat) (ds' : DomainStore)
    (urlsDb' : UrlStateDb) (job : Job)
    (h : prepareJob prio ds urlsDb d k = some (ds', urlsDb', job)) :
    job = ⟨d, false,
      weighted_sample prio
        ((urlDbGetAllUrls urlsDb d).filterMap
          (fun p =>
            if p.2.status = UrlStatus.pending then some (p.1, p.2.weight)
            else none))
        k⟩ ∧
    ds' = dsPut ds d
      { (dsGet ds d).getD domainStateDefault with
          weight :=
            maxByOr0
              ((urlDbGetAllUrls urlsDb d).filterMap
                (fun p =>
                  if p.2.status = UrlStatus.pending then some p.2.weight
                  else none)) } := by
  unfold prepareJob at h
  simp only [] at h
  split at h
  · cases h
  · split at h
    · cases h
    · injection h with h
      simp only [Prod.mk.injEq] at h
      exact ⟨h.2.2.symm, h.1.symm⟩

/-- C1 (amended): in `prepare_jobs`, the domain's `DomainState.weight` is
recomputed as the maximum `UrlState.weight` among the URLs that were
`Pending` in the snapshot taken at the start of the domain's processing —
i.e. INCLUDING the URLs selected and marked `Crawling` in this same call,
because the recomputation reads the pre-write snapshot — and set to `0` only
if no URL was `Pending` in that snapshot.  In particular the new weight is
at least the weight of every snapshot-Pending URL, selected or not. -/
theorem claim_C1 (prio : Nat → ℤ → ℚ) (ds : DomainStore) (urlsDb : UrlStateDb)
    (d : Domain) (k : Nat) (ds' : DomainStore) (urlsDb' : UrlStateDb)
    (jobs : List Job)
    (h : prepare_jobs prio ds urlsDb [d] k = some (ds', urlsDb', jobs)) :
    ∃ st, dsGet ds' d = some st ∧
      st.weight =
        maxByOr0
          ((urlDbGetAllUrls urlsDb d).filterMap
            (fun p =>
              if p.2.status = UrlStatus.pending then some p.2.weight
              else none)) ∧
      (∀ p ∈ urlDbGetAllUrls urlsDb d, p.2.status = UrlStatus.pending →
        p.2.weight ≤ st.weight) := by
  unfold prepare_jobs at h
  split at h
  · cases h
  · case _ ds1 urlsDb1 job hpj =>
    unfold prepare_jobs at h
    injection h with h
    simp only [Prod.mk.injEq] at h
    obtain ⟨hds, hurls, hjobs⟩ := h
    obtain ⟨hjob, hds1⟩ := prepareJob_inv _ _ _ _ _ _ _ _ hpj
    subst hds
    subst hds1
    exact ⟨_, alookup_aput_self _ _ _, rfl,
      fun p hp hpend =>
        maxByOr0_ge (List.mem_filterMap.mpr ⟨p, hp, by rw [if_pos hpend]⟩)⟩

/-- Witness for the amended C1 at a store holding one Pending URL of
weight 5 that the call samples and marks Crawling. -/
theorem claim_C1_witness :
    ∃ st, dsGet fixDs [100] = some st ∧
      st.weight =
        maxByOr0
          ((urlDbGetAllUrls fixUrls [100]).filterMap
            (fun p =>
              if p.2.status = UrlStatus.pending then some p.2.weight
              else none)) ∧
      (∀ p ∈ urlDbGetAllUrls fixUrls [100], p.2.status = UrlStatus.pending →
        p.2.weight ≤ st.weight) :=
  claim_C1 oraclePrioZero fixDs fixUrls [100] 1 fixDs fixUrlsPost
    [⟨[100], false, [[117]]⟩] (by decide)

/-- C1 (counterexample): a domain with a single Pending URL of weight 5,
sampled with `urls_per_job = 1`.  After `prepare_jobs` the URL is `Crawling`
and no Pending URL remains, so the claim requires the recomputed domain
weight to be 0 — but the code recomputes from the pre-write snapshot and
stores weight 5. -/
theorem claim_C1_counterexample :
    prepare_jobs oraclePrioZero fixDs fixUrls [[100]] 1 =
      some (fixDs, fixUrlsPost, [⟨[100], false, [[117]]⟩]) ∧
    dsGet fixDs [100] = some ⟨5, DomainStatus.pending, 1⟩ ∧
    (urlDbGetAllUrls fixUrlsPost [100]).filterMap
        (fun p =>
          if p.2.status = UrlStatus.pending then some p.2.weight
          else none) = [] ∧
    (5 : ℤ) ≠ 0 := by
  decide

theorem prepare_jobs_domains (prio : Nat → ℤ → ℚ) (domains : List Domain) :
    ∀ (ds : DomainStore) (urlsDb : UrlStateDb) (k : Nat) (ds' : DomainStore)
      (urlsDb' : UrlStateDb) (jobs : List Job),
    prepare_jobs prio ds urlsDb domains k = some (ds', urlsDb', jobs) →
    jobs.map Job.domain = domains := by
  induction domains with
  | nil =>
    intro ds urlsDb k ds' urlsDb' jobs h
    unfold prepare_jobs at h
    injection h with h
    simp only [Prod.mk.injEq] at h
    rw [← h.2.2]
    rfl
  | cons d rest ih =>
    intro ds urlsDb k ds' urlsDb' jobs h
    unfold prepare_jobs at h
    split at h
    · cases h
    · case _ ds1 urlsDb1 job hpj =>
      split at h
      · cases h
      · case _ ds2 urlsDb2 jobs2 hrec =>
        injection h with h
        simp only [Prod.mk.injEq] at h
        rw [← h.2.2]
        obtain ⟨hjob, _⟩ := prepareJob_inv _ _ _ _ _ _ _ _ hpj
        rw [List.map_cons, ih _ _ _ _ _ _ hrec, hjob]

/-- C10: `prepare_jobs(domains, urls_per_job)` returns exactly one `Job` per
requested domain, in input order; and for a single requested domain with no
`Pending` URLs, the call still succeeds with a job whose URL queue is empty
(the domain is not skipped and no error is raised) and the domain's stored
weight is set to 0. -/
theorem claim_C10 (prio : Nat → ℤ → ℚ) (ds : DomainStore)
    (urlsDb : UrlStateDb) (domains : List Domain) (k : Nat)
    (ds' : DomainStore) (urlsDb' : UrlStateDb) (jobs : List Job)
    (h : prepare_jobs prio ds urlsDb domains k = some (ds', urlsDb', jobs)) :
    jobs.map Job.domain = domains ∧
    (∀ d : Domain, domains = [d] →
      (∀ p ∈ urlDbGetAllUrls urlsDb d, p.2.status ≠ UrlStatus.pending) →
      jobs = [⟨d, false, []⟩] ∧
      ∃ st, dsGet ds' d = some st ∧ st.weight = 0) := by
  constructor
  · exact prepare_jobs_domains prio domains _ _ _ _ _ _ h
  · intro d hdom hnp
    subst hdom
    have hav : (urlDbGetAllUrls urlsDb d).filterMap
        (fun p =>
          if p.2.status = UrlStatus.pending then some (p.1, p.2.weight)
          else none) = [] := by
      rw [List.filterMap_eq_nil_iff]
      intro p hp
      rw [if_neg (hnp p hp)]
    have hw : (urlDbGetAllUrls urlsDb d).filterMap
        (fun p =>
          if p.2.status = UrlStatus.pending then some p.2.weight else none) =
        [] := by
      rw [List.filterMap_eq_nil_iff]
      intro p hp
      rw [if_neg (hnp p hp)]
    unfold prepare_jobs at h
    split at h
    · cases h
    · case _ ds1 urlsDb1 job hpj =>
      unfold prepare_jobs at h
      injection h with h
      simp only [Prod.mk.injEq] at h
      obtain ⟨hds, hurls, hjobs⟩ := h
      obtain ⟨hjob, hds1⟩ := prepareJob_inv _ _ _ _ _ _ _ _ hpj
      subst hds
      subst hds1
      constructor
      · rw [← hjobs, hjob, hav, weighted_sample_nil]
      · refine ⟨_, alookup_aput_self _ _ _, ?_⟩
        show maxByOr0 _ = 0
        rw [hw]
        rfl

/-- Witness for C10: one requested domain whose only URL is already
`Crawling`; the call emits one empty job and zeroes the domain weight. -/
theorem claim_C10_witness :
    ([⟨[100], false, []⟩] : List Job).map Job.domain = [[100]] ∧
    (∀ d : Domain, [[100]] = [d] →
      (∀ p ∈ urlDbGetAllUrls fixUrlsPost d,
        p.2.status ≠ UrlStatus.pending) →
      ([⟨[100], false, []⟩] : List Job) = [⟨d, false, []⟩] ∧
      ∃ st, dsGet [(bincodeBytes [100], ⟨0, DomainStatus.pending, 1⟩)] d =
          some st ∧ st.weight = 0) :=
  claim_C10 oraclePrioZero fixDs fixUrlsPost
    [[100]] 3 [(bincodeBytes [100], ⟨0, DomainStatus.pending, 1⟩)]
    fixUrlsPost [⟨[100], false, []⟩] (by decide)

/-! ## Claim C2 -/

theorem multiPush_same (d : Domain) (l : List UrlToInsert) (x : UrlToInsert) :
    multiPush [(d, l)] d x = [(d, l ++ [x])] := by
  simp [multiPush]

theorem foldl_multiPush_replicate (dA : Domain) (u : Url) (n : Nat) :
    ∀ l : List UrlToInsert,
    List.foldl
        (fun acc url =>
          multiPush acc url.toDomain ⟨url, decide (dA ≠ url.toDomain)⟩)
        [(u.toDomain, l)] (List.replicate n u) =
      [(u.toDomain, l ++ List.replicate n ⟨u, decide (dA ≠ u.toDomain)⟩)] := by
  induction n with
  | zero => intro l; simp
  | succ m ih =>
    intro l
    rw [List.replicate_succ, List.foldl_cons, multiPush_same, ih]
    rw [List.append_assoc, List.singleton_append, ← List.replicate_succ]

theorem fanOut_single_replicate (dA : Domain) (u : Url) (n : Nat) :
    fanOut [⟨dA, List.replicate (n + 1) u, []⟩] =
      [(u.toDomain, List.replicate (n + 1) ⟨u, decide (dA ≠ u.toDomain)⟩)] := by
  unfold fanOut
  rw [List.foldl_cons, List.foldl_nil]
  show List.foldl _ [] (List.replicate (n + 1) u) = _
  rw [List.replicate_succ, List.foldl_cons]
  show List.foldl _ (multiPush [] u.toDomain ⟨u, decide (dA ≠ u.toDomain)⟩)
      (List.replicate n u) = _
  rw [show multiPush [] u.toDomain ⟨u, decide (dA ≠ u.toDomain)⟩ =
      [(u.toDomain, [⟨u, decide (dA ≠ u.toDomain)⟩])] from rfl]
  rw [foldl_multiPush_replicate]
  rw [List.singleton_append, ← List.replicate_succ]

theorem insertUrlStep_fresh (urlsDb : UrlStateDb) (domain : Domain)
    (u : UrlToInsert) (hu : u.different_domain = true)
    (hfresh : urlDbGet urlsDb domain u.url.toUrlString = GetResult.ok none)
    (s : DomainState) (acc : List (UrlString × UrlState)) :
    insertUrlStep urlsDb domain (GetResult.ok (s, acc)) u =
      GetResult.ok
        (⟨if s.weight < 1 then 1 else s.weight, s.status, s.total_urls + 1⟩,
          acc ++ [(u.url.toUrlString, ⟨1, UrlStatus.pending⟩)]) := by
  unfold insertUrlStep
  rw [hfresh]
  by_cases hw : s.weight < 1 <;>
    simp [hu, hw, urlStateDefault]

theorem processUrls_replicate (urlsDb : UrlStateDb) (domain : Domain)
    (u : UrlToInsert) (hu : u.different_domain = true)
    (hfresh : urlDbGet urlsDb domain u.url.toUrlString = GetResult.ok none)
    (n : Nat) :
    ∀ (s : DomainState) (acc : List (UrlString × UrlState)),
    List.foldl (insertUrlStep urlsDb domain) (GetResult.ok (s, acc))
        (List.replicate (n + 1) u) =
      GetResult.ok
        (⟨if s.weight < 1 then 1 else s.weight, s.status,
            s.total_urls + (n + 1)⟩,
          acc ++
            List.replicate (n + 1) (u.url.toUrlString, ⟨1, UrlStatus.pending⟩)) := by
  induction n with
  | zero =>
    intro s acc
    rw [List.replicate_succ, List.replicate_zero, List.foldl_cons,
      insertUrlStep_fresh urlsDb domain u hu hfresh, List.foldl_nil]
    rw [List.replicate_succ, List.replicate_zero]
  | succ m ih =>
    intro s acc
    rw [List.replicate_succ, List.foldl_cons,
      insertUrlStep_fresh urlsDb domain u hu hfresh, ih]
    have hidem : (if (if s.weight < 1 then 1 else s.weight) < 1 then 1
        else if s.weight < 1 then 1 else s.weight) =
        if s.weight < 1 then (1 : ℤ) else s.weight := by
      by_cases hw : s.weight < 1
      · simp [hw]
      · simp [hw]
    rw [hidem]
    have hlist : (acc ++ [(u.url.toUrlString, (⟨1, UrlStatus.pending⟩ : UrlState))]) ++
        List.replicate (m + 1) (u.url.toUrlString, (⟨1, UrlStatus.pending⟩ : UrlState)) =
        acc ++ List.replicate (m + 2) (u.url.toUrlString, (⟨1, UrlStatus.pending⟩ : UrlState)) := by
      rw [List.append_assoc, List.singleton_append, ← List.replicate_succ]
    rw [hlist]
    have hnat : s.total_urls + 1 + (m + 1) = s.total_urls + (m + 1 + 1) := by omega
    rw [hnat]

theorem alookup_foldBatch_const (domain : Domain) (us : UrlString)
    (st : UrlState) (n : Nat) :
    ∀ db : List (Bytes × Option UrlState),
    alookup (compositeKey domain us)
        ((List.replicate (n + 1) (us, st)).foldl
          (fun acc p => sortedPut (compositeKey domain p.1) (some p.2) acc)
          db) =
      some (some st) := by
  induction n with
  | zero =>
    intro db
    rw [List.replicate_succ, List.replicate_zero, List.foldl_cons,
      List.foldl_nil]
    exact alookup_sortedPut_self _ _ _
  | succ m ih =>
    intro db
    rw [List.replicate_succ, List.foldl_cons]
    exact ih _

theorem getLast?_isSome_of_ne_nil {α : Type} {l : List α} (h : l ≠ []) :
    ∃ a, l.getLast? = some a := by
  cases l with
  | nil => exact absurd rfl h
  | cons x t => exact ⟨(x :: t).getLast (by simp), List.getLast?_eq_getLast _ _⟩

theorem insertGroups_single (crawl : CrawlDb) (ne : List Domain)
    (g : Domain × List UrlToInsert) :
    insertGroups crawl ne [g] = insertUrlsGroup crawl ne g := by
  unfold insertGroups
  cases h : insertUrlsGroup crawl ne g with
  | none => rfl
  | some p =>
    obtain ⟨c', ne'⟩ := p
    rfl

theorem insertUrlsGroup_known (crawl : CrawlDb) (ne : List Domain)
    (domain : Domain) (us : List UrlToInsert) (ds0 dsF : DomainState)
    (batch : List (UrlString × UrlState)) (urls' : UrlStateDb)
    (hds : dsGet crawl.domain_state domain = some ds0)
    (hne : us ≠ [])
    (hproc : processUrls crawl.urls domain ds0 us = GetResult.ok (dsF, batch))
    (hput : urlDbPutBatch crawl.urls domain batch = some urls') :
    insertUrlsGroup crawl ne (domain, us) =
      some ({ crawl with
                urls := urls',
                domain_state := dsPut crawl.domain_state domain dsF },
        setInsert domain ne) := by
  unfold insertUrlsGroup
  simp only [hds, hproc, hput, hne, ne_eq, not_false_eq_true, if_true]

/-- C2 (amended): within a single `insert_urls` call, URL-state reads see
the store as it was before the current domain's batch write (the staged
`url_states` are not read back), so a previously-unknown URL discovered
`n + 1` times in one call bumps `total_urls` once per occurrence (by
`n + 1` in total, not once), and its cross-domain weight contributions do
NOT accumulate: each occurrence recomputes `0 + 1` from the pre-call state
and the batched writes overwrite each other, leaving the URL stored with
weight 1.  (Domain-state reads do observe earlier same-call writes, because
the domain state is carried through a local value.) -/
theorem claim_C2 (crawl : CrawlDb) (dA : Domain) (u : Url) (n : Nat)
    (ds0 : DomainState) (hdiff : dA ≠ u.toDomain)
    (hds : dsGet crawl.domain_state u.toDomain = some ds0)
    (hfresh : urlDbGet crawl.urls u.toDomain u.toUrlString = GetResult.ok none)
    (hshards : crawl.urls.shards ≠ []) :
    ∃ crawl', insert_urls crawl [⟨dA, List.replicate (n + 1) u, []⟩] =
        some (crawl', [u.toDomain]) ∧
      dsGet crawl'.domain_state u.toDomain =
        some ⟨if ds0.weight < 1 then 1 else ds0.weight, ds0.status,
          ds0.total_urls + (n + 1)⟩ ∧
      urlDbGet crawl'.urls u.toDomain u.toUrlString =
        GetResult.ok (some ⟨1, UrlStatus.pending⟩) := by
  have hflag : decide (dA ≠ u.toDomain) = true := decide_eq_true hdiff
  have hfan := fanOut_single_replicate dA u n
  rw [hflag] at hfan
  obtain ⟨last, hlast⟩ := getLast?_isSome_of_ne_nil hshards
  have hproc : processUrls crawl.urls u.toDomain ds0
      (List.replicate (n + 1) ⟨u, true⟩) =
      GetResult.ok
        (⟨if ds0.weight < 1 then 1 else ds0.weight, ds0.status,
            ds0.total_urls + (n + 1)⟩,
          List.replicate (n + 1) (u.toUrlString, ⟨1, UrlStatus.pending⟩)) := by
    unfold processUrls
    have := processUrls_replicate crawl.urls u.toDomain ⟨u, true⟩ rfl hfresh n
      ds0 []
    rw [List.nil_append] at this
    exact this
  have hput : urlDbPutBatch crawl.urls u.toDomain
      (List.replicate (n + 1) (u.toUrlString, ⟨1, UrlStatus.pending⟩)) =
      some ⟨updateLastShard u.toDomain
        (List.replicate (n + 1) (u.toUrlString, ⟨1, UrlStatus.pending⟩))
        (if MAX_URL_DB_SIZE_BYTES < last.approx_size_bytes then
          crawl.urls.shards ++ [emptyShard]
        else crawl.urls.shards)⟩ := by
    unfold urlDbPutBatch
    rw [hlast]
  have hgrp := insertUrlsGroup_known
    { crawl with
        redirects :=
          applyRedirects crawl.redirects [⟨dA, List.replicate (n + 1) u, []⟩] }
    [] u.toDomain (List.replicate (n + 1) ⟨u, true⟩) ds0
    ⟨if ds0.weight < 1 then 1 else ds0.weight, ds0.status,
      ds0.total_urls + (n + 1)⟩
    (List.replicate (n + 1) (u.toUrlString, ⟨1, UrlStatus.pending⟩))
    ⟨updateLastShard u.toDomain
      (List.replicate (n + 1) (u.toUrlString, ⟨1, UrlStatus.pending⟩))
      (if MAX_URL_DB_SIZE_BYTES < last.approx_size_bytes then
        crawl.urls.shards ++ [emptyShard]
      else crawl.urls.shards)⟩
    hds (by simp) hproc hput
  exact ⟨⟨dsPut crawl.domain_state u.toDomain
        ⟨if ds0.weight < 1 then 1 else ds0.weight, ds0.status,
          ds0.total_urls + (n + 1)⟩,
      ⟨updateLastShard u.toDomain
        (List.replicate (n + 1) (u.toUrlString, ⟨1, UrlStatus.pending⟩))
        (if MAX_URL_DB_SIZE_BYTES < last.approx_size_bytes then
          crawl.urls.shards ++ [emptyShard]
        else crawl.urls.shards)⟩,
      applyRedirects crawl.redirects [⟨dA, List.replicate (n + 1) u, []⟩]⟩,
    by unfold insert_urls; rw [hfan, insertGroups_single]; exact hgrp,
    alookup_aput_self _ _ _,
    urlDbGet_after_putBatch hput
      (fun d0 => alookup_foldBatch_const u.toDomain u.toUrlString
        ⟨1, UrlStatus.pending⟩ n d0)⟩

/-- Witness for the amended C2: the same unknown cross-domain URL discovered
twice in one call on a store that already knows its domain. -/
theorem claim_C2_witness :
    ∃ crawl', insert_urls
        ⟨[(bincodeBytes [98], ⟨0, DomainStatus.pending, 5⟩)], ⟨[emptyShard]⟩, []⟩
        [⟨[97], List.replicate 2 ⟨[98], [112]⟩, []⟩] =
        some (crawl', [Url.toDomain ⟨[98], [112]⟩]) ∧
      dsGet crawl'.domain_state (Url.toDomain ⟨[98], [112]⟩) =
        some ⟨1, DomainStatus.pending, 7⟩ ∧
      urlDbGet crawl'.urls (Url.toDomain ⟨[98], [112]⟩)
          (Url.toUrlString ⟨[98], [112]⟩) =
        GetResult.ok (some ⟨1, UrlStatus.pending⟩) :=
  claim_C2
    ⟨[(bincodeBytes [98], ⟨0, DomainStatus.pending, 5⟩)], ⟨[emptyShard]⟩, []⟩
    [97] ⟨[98], [112]⟩ 1 ⟨0, DomainStatus.pending, 5⟩
    (by decide) (by decide) (by decide) (by decide)

/-- C2 (counterexample): one response from domain `[97]` discovering the
same previously-unknown cross-domain URL (host `[98]`) twice.  The claim
says the later processing observes the earlier one, bumping `total_urls`
only once (to 1) and accumulating the weight (to 2); the code reads the
pre-batch store both times, stores `total_urls = 2` and weight `1`. -/
theorem claim_C2_counterexample :
    insert_urls ⟨[], ⟨[emptyShard]⟩, []⟩
        [⟨[97], [⟨[98], [112]⟩, ⟨[98], [112]⟩], []⟩] =
      some
        (⟨[(bincodeBytes [98], ⟨1, DomainStatus.pending, 2⟩)],
          ⟨[shardPutBatch emptyShard [98]
            [(Url.toUrlString ⟨[98], [112]⟩, ⟨1, UrlStatus.pending⟩),
             (Url.toUrlString ⟨[98], [112]⟩, ⟨1, UrlStatus.pending⟩)]]⟩, []⟩,
         [[98]]) ∧
    ((1 : ℤ), (2 : Nat)) ≠ ((2 : ℤ), (1 : Nat)) := by
  decide

/-! ## Claim C5 -/

theorem if_lt_eq_max (a b : ℤ) : (if a < b then b else a) = max a b := by
  by_cases h : a < b
  · simp [h, max_eq_right h.le]
  · simp [h, max_eq_left (le_of_not_lt h)]

theorem insertUrlStep_spec (urlsDb : UrlStateDb) (domain : Domain)
    (s : DomainState) (acc : List (UrlString × UrlState)) (u : UrlToInsert)
    (found : Option UrlState) (s' : DomainState)
    (acc' : List (UrlString × UrlState))
    (hget : urlDbGet urlsDb domain u.url.toUrlString = GetResult.ok found)
    (hstep : insertUrlStep urlsDb domain (GetResult.ok (s, acc)) u =
      GetResult.ok (s', acc')) :
    ∃ newst : UrlState,
      acc' = acc ++ [(u.url.toUrlString, newst)] ∧
      newst.weight = (found.getD urlStateDefault).weight +
        (if u.different_domain then 1 else 0) ∧
      s'.weight = max s.weight newst.weight ∧
      s.weight ≤ s'.weight := by
  unfold insertUrlStep at hstep
  rw [hget] at hstep
  cases found with
  | none =>
    injection hstep with h
    rw [Prod.mk.injEq] at h
    obtain ⟨hA, hacc⟩ := h
    subst hA
    refine ⟨_, hacc.symm, ?_, ?_, ?_⟩
    · cases hdd : u.different_domain <;> simp [hdd, urlStateDefault]
    · rw [apply_ite DomainState.weight]
      dsimp only
      exact if_lt_eq_max _ _
    · rw [apply_ite DomainState.weight]
      dsimp only
      rw [if_lt_eq_max]
      exact le_max_left _ _
  | some st =>
    injection hstep with h
    rw [Prod.mk.injEq] at h
    obtain ⟨hA, hacc⟩ := h
    subst hA
    refine ⟨_, hacc.symm, ?_, ?_, ?_⟩
    · cases hdd : u.different_domain <;> simp [hdd]
    · rw [apply_ite DomainState.weight]
      dsimp only
      exact if_lt_eq_max _ _
    · rw [apply_ite DomainState.weight]
      dsimp only
      rw [if_lt_eq_max]
      exact le_max_left _ _

theorem multiPush_sound (Q : UrlToInsert → Domain → Prop)
    {acc : List (Domain × List UrlToInsert)} {d : Domain} {x : UrlToInsert}
    (hacc : ∀ p ∈ acc, ∀ y ∈ p.2, Q y p.1) (hx : Q x d) :
    ∀ p ∈ multiPush acc d x, ∀ y ∈ p.2, Q y p.1 := by
  induction acc with
  | nil =>
    intro p hp y hy
    simp only [multiPush, List.mem_singleton] at hp
    subst hp
    simp only [List.mem_singleton] at hy
    subst hy
    exact hx
  | cons hd t ih =>
    obtain ⟨d0, us0⟩ := hd
    intro p hp y hy
    by_cases hdd : d = d0
    · subst hdd
      rw [show multiPush ((d, us0) :: t) d x = (d, us0 ++ [x]) :: t from by
        simp [multiPush]] at hp
      rcases List.mem_cons.mp hp with h1 | h1
      · subst h1
        rcases List.mem_append.mp hy with h | h
        · exact hacc (d, us0) (List.mem_cons_self _ _) y h
        · rw [List.mem_singleton] at h
          subst h
          exact hx
      · exact hacc p (List.mem_cons_of_mem _ h1) y hy
    · rw [show multiPush ((d0, us0) :: t) d x = (d0, us0) :: multiPush t d x from by
        simp [multiPush, hdd]] at hp
      rcases List.mem_cons.mp hp with h2 | h2
      · subst h2
        exact hacc (d0, us0) (List.mem_cons_self _ _) y hy
      · exact ih (fun q hq => hacc q (List.mem_cons_of_mem _ hq)) p h2 y hy

theorem foldUrls_sound (Q : UrlToInsert → Domain → Prop) (dom_resp : Domain)
    (urls : List Url) :
    ∀ acc : List (Domain × List UrlToInsert),
    (∀ p ∈ acc, ∀ y ∈ p.2, Q y p.1) →
    (∀ url ∈ urls, Q ⟨url, decide (dom_resp ≠ url.toDomain)⟩ url.toDomain) →
    ∀ p ∈ urls.foldl
        (fun acc url =>
          multiPush acc url.toDomain ⟨url, decide (dom_resp ≠ url.toDomain)⟩)
        acc,
      ∀ y ∈ p.2, Q y p.1 := by
  induction urls with
  | nil => intro acc hacc _ p hp; exact hacc p hp
  | cons u t ih =>
    intro acc hacc hnew
    rw [List.foldl_cons]
    exact ih _
      (multiPush_sound Q hacc (hnew u (List.mem_cons_self _ _)))
      (fun url hu => hnew url (List.mem_cons_of_mem _ hu))

theorem fanOut_sound (responses : List JobResponse) :
    ∀ p ∈ fanOut responses, ∀ y ∈ p.2,
      p.1 = y.url.toDomain ∧
      ∃ res ∈ responses, y.url ∈ res.discovered_urls ∧
        y.different_domain = decide (res.domain ≠ y.url.toDomain) := by
  have main : ∀ (rs : List JobResponse)
      (acc : List (Domain × List UrlToInsert)),
      (∀ r ∈ rs, r ∈ responses) →
      (∀ p ∈ acc, ∀ y ∈ p.2,
        p.1 = y.url.toDomain ∧
        ∃ res ∈ responses, y.url ∈ res.discovered_urls ∧
          y.different_domain = decide (res.domain ≠ y.url.toDomain)) →
      ∀ p ∈ rs.foldl
          (fun acc res =>
            res.discovered_urls.foldl
              (fun acc url =>
                multiPush acc url.toDomain
                  ⟨url, decide (res.domain ≠ url.toDomain)⟩)
              acc)
          acc,
        ∀ y ∈ p.2,
          p.1 = y.url.toDomain ∧
          ∃ res ∈ responses, y.url ∈ res.discovered_urls ∧
            y.different_domain = decide (res.domain ≠ y.url.toDomain) := by
    intro rs
    induction rs with
    | nil => intro acc hsub hacc p hp; exact hacc p hp
    | cons r t ih =>
      intro acc hsub hacc
      rw [List.foldl_cons]
      refine ih _ (fun r' hr' => hsub r' (List.mem_cons_of_mem _ hr')) ?_
      refine foldUrls_sound
        (fun y dd =>
          dd = y.url.toDomain ∧
          ∃ res ∈ responses, y.url ∈ res.discovered_urls ∧
            y.different_domain = decide (res.domain ≠ y.url.toDomain))
        r.domain r.discovered_urls acc hacc ?_
      intro url hu
      exact ⟨rfl, r, hsub r (List.mem_cons_self _ _), hu, rfl⟩
  intro p hp
  exact main responses [] (fun r hr => hr) (by intro p hp; cases hp) p hp

theorem foldl_insertUrlStep_panic (urlsDb : UrlStateDb) (domain : Domain)
    (us : List UrlToInsert) :
    us.foldl (insertUrlStep urlsDb domain) GetResult.panic =
      GetResult.panic := by
  induction us with
  | nil => rfl
  | cons u t ih =>
    rw [List.foldl_cons]
    exact ih

theorem processUrls_mono (urlsDb : UrlStateDb) (domain : Domain)
    (us : List UrlToInsert) :
    ∀ (s : DomainState) (acc sts : List (UrlString × UrlState))
      (s' : DomainState),
    us.foldl (insertUrlStep urlsDb domain) (GetResult.ok (s, acc)) =
      GetResult.ok (s', sts) →
    s.weight ≤ s'.weight := by
  induction us with
  | nil =>
    intro s acc sts s' h
    rw [List.foldl_nil] at h
    injection h with h
    rw [Prod.mk.injEq] at h
    rw [h.1]
  | cons u t ih =>
    intro s acc sts s' h
    rw [List.foldl_cons] at h
    cases hstep : insertUrlStep urlsDb domain (GetResult.ok (s, acc)) u with
    | panic =>
      rw [hstep, foldl_insertUrlStep_panic] at h
      cases h
    | ok p =>
      obtain ⟨s1, acc1⟩ := p
      rw [hstep] at h
      have hle1 : s.weight ≤ s1.weight := by
        cases hget : urlDbGet urlsDb domain u.url.toUrlString with
        | panic =>
          unfold insertUrlStep at hstep
          rw [hget] at hstep
          cases hstep
        | ok found =>
          obtain ⟨_, _, _, _, hle⟩ :=
            insertUrlStep_spec urlsDb domain s acc u found s1 acc1 hget hstep
          exact hle
      exact le_trans hle1 (ih _ _ _ _ h)

theorem insertUrlsGroup_mono (crawl : CrawlDb) (ne : List Domain)
    (g : Domain × List UrlToInsert) (crawl' : CrawlDb) (ne' : List Domain)
    (h : insertUrlsGroup crawl ne g = some (crawl', ne')) :
    ∀ (d : Domain) (s : DomainState), dsGet crawl.domain_state d = some s →
    ∃ s', dsGet crawl'.domain_state d = some s' ∧ s.weight ≤ s'.weight := by
  unfold insertUrlsGroup at h
  cases hg : dsGet crawl.domain_state g.1 with
  | some st0 =>
    cases hproc : processUrls crawl.urls g.1 st0 g.2 with
    | panic =>
      simp only [hg, hproc] at h
      cases h
    | ok q =>
      obtain ⟨dsF, sts⟩ := q
      cases hput : urlDbPutBatch crawl.urls g.1 sts with
      | none =>
        simp only [hg, hproc, hput] at h
        cases h
      | some urls2 =>
        simp only [hg, hproc, hput, Option.some.injEq, Prod.mk.injEq] at h
        obtain ⟨hc, hne2⟩ := h
        intro d s hs
        rw [← hc]
        by_cases hd : d = g.1
        · subst hd
          rw [hg] at hs
          injection hs with hs
          subst hs
          exact ⟨dsF, alookup_aput_self _ _ _,
            processUrls_mono _ _ _ _ _ _ _ hproc⟩
        · refine ⟨s, ?_, le_refl _⟩
          show alookup (bincodeBytes d)
            (aput (bincodeBytes g.1) dsF crawl.domain_state) = some s
          rw [alookup_aput_ne _ _ (bincodeBytes_ne_of_ne hd)]
          exact hs
  | none =>
    cases hproc : processUrls crawl.urls g.1 ⟨0, DomainStatus.pending, 0⟩ g.2 with
    | panic =>
      simp only [hg, hproc] at h
      cases h
    | ok q =>
      obtain ⟨dsF, sts⟩ := q
      cases hput : urlDbPutBatch crawl.urls g.1 sts with
      | none =>
        simp only [hg, hproc, hput] at h
        cases h
      | some urls2 =>
        simp only [hg, hproc, hput, Option.some.injEq, Prod.mk.injEq] at h
        obtain ⟨hc, hne2⟩ := h
        intro d s hs
        rw [← hc]
        by_cases hd : d = g.1
        · subst hd
          rw [hg] at hs
          cases hs
        · refine ⟨s, ?_, le_refl _⟩
          show alookup (bincodeBytes d)
            (aput (bincodeBytes g.1) dsF
              (aput (bincodeBytes g.1) ⟨0, DomainStatus.pending, 0⟩
                crawl.domain_state)) = some s
          rw [alookup_aput_ne _ _ (bincodeBytes_ne_of_ne hd),
            alookup_aput_ne _ _ (bincodeBytes_ne_of_ne hd)]
          exact hs

theorem insertGroups_mono (groups : List (Domain × List UrlToInsert)) :
    ∀ (crawl : CrawlDb) (ne : List Domain) (crawl' : CrawlDb)
      (doms : List Domain),
    insertGroups crawl ne groups = some (crawl', doms) →
    ∀ (d : Domain) (s : DomainState), dsGet crawl.domain_state d = some s →
    ∃ s', dsGet crawl'.domain_state d = some s' ∧ s.weight ≤ s'.weight := by
  induction groups with
  | nil =>
    intro crawl ne crawl' doms h d s hs
    unfold insertGroups at h
    injection h with h
    rw [Prod.mk.injEq] at h
    rw [← h.1]
    exact ⟨s, hs, le_refl _⟩
  | cons g rest ih =>
    intro crawl ne crawl' doms h d s hs
    unfold insertGroups at h
    cases hgrp : insertUrlsGroup crawl ne g with
    | none =>
      simp only [hgrp] at h
      cases h
    | some q =>
      obtain ⟨c1, ne1⟩ := q
      simp only [hgrp] at h
      obtain ⟨s1, hs1, hle1⟩ := insertUrlsGroup_mono _ _ _ _ _ hgrp d s hs
      obtain ⟨s2, hs2, hle2⟩ := ih _ _ _ _ h d s1 hs1
      exact ⟨s2, hs2, le_trans hle1 hle2⟩

/-- C5: during ingest, (i) processing one discovered URL loads its state
from the store (default for an unknown URL) and the staged state's weight is
the loaded weight plus 1 exactly when the URL was tagged cross-domain, with
the local domain weight updated to the maximum of its previous value and the
new URL weight; (ii) the fan-out tags a discovered URL `different_domain`
exactly when the response's source domain differs from the URL's domain; and
(iii) across a whole `insert_urls` call every stored domain weight is
monotone non-decreasing. -/
theorem claim_C5 :
    (∀ (urlsDb : UrlStateDb) (domain : Domain) (s : DomainState)
        (acc : List (UrlString × UrlState)) (u : UrlToInsert)
        (found : Option UrlState) (s' : DomainState)
        (acc' : List (UrlString × UrlState)),
      urlDbGet urlsDb domain u.url.toUrlString = GetResult.ok found →
      insertUrlStep urlsDb domain (GetResult.ok (s, acc)) u =
        GetResult.ok (s', acc') →
      ∃ newst : UrlState,
        acc' = acc ++ [(u.url.toUrlString, newst)] ∧
        newst.weight = (found.getD urlStateDefault).weight +
          (if u.different_domain then 1 else 0) ∧
        s'.weight = max s.weight newst.weight) ∧
    (∀ responses : List JobResponse, ∀ p ∈ fanOut responses, ∀ y ∈ p.2,
      p.1 = y.url.toDomain ∧
      ∃ res ∈ responses, y.url ∈ res.discovered_urls ∧
        y.different_domain = decide (res.domain ≠ y.url.toDomain)) ∧
    (∀ (crawl : CrawlDb) (responses : List JobResponse) (crawl' : CrawlDb)
        (doms : List Domain),
      insert_urls crawl responses = some (crawl', doms) →
      ∀ (d : Domain) (s : DomainState), dsGet crawl.domain_state d = some s →
      ∃ s', dsGet crawl'.domain_state d = some s' ∧ s.weight ≤ s'.weight) := by
  refine ⟨?_, ?_, ?_⟩
  · intro urlsDb domain s acc u found s' acc' hget hstep
    obtain ⟨newst, h1, h2, h3, _⟩ :=
      insertUrlStep_spec urlsDb domain s acc u found s' acc' hget hstep
    exact ⟨newst, h1, h2, h3⟩
  · exact fanOut_sound
  · intro crawl responses crawl' doms h d s hs
    unfold insert_urls at h
    exact insertGroups_mono _ _ _ _ _ h d s hs

/-- Witness for C5 clause (i): one cross-domain discovery of an unknown URL
against a concrete store. -/
theorem claim_C5_witness :
    ∃ newst : UrlState,
      [(Url.toUrlString ⟨[100], [112]⟩, (⟨1, UrlStatus.pending⟩ : UrlState))] =
        [] ++ [(Url.toUrlString ⟨[100], [112]⟩, newst)] ∧
      newst.weight = ((none : Option UrlState).getD urlStateDefault).weight +
        (if (⟨⟨[100], [112]⟩, true⟩ : UrlToInsert).different_domain then 1
          else 0) ∧
      (⟨5, DomainStatus.pending, 2⟩ : DomainState).weight =
        max (⟨5, DomainStatus.pending, 1⟩ : DomainState).weight newst.weight :=
  claim_C5.1 fixUrls [100] ⟨5, DomainStatus.pending, 1⟩ []
    ⟨⟨[100], [112]⟩, true⟩ none ⟨5, DomainStatus.pending, 2⟩
    [(Url.toUrlString ⟨[100], [112]⟩, ⟨1, UrlStatus.pending⟩)]
    (by decide) (by decide)
